import Mathlib

/-!
Verification of the RAG subsystem of the therapy-session repository.

The definitions below are a shallow embedding of the TypeScript sources:
- PgVectorAdapter (src/backend/src/modules/rag/adapters/pgvector.adapter.ts):
  similarity search, dot-product similarity, upsert/upsertBatch.
- RAGService (src/backend/src/modules/rag/rag.service.ts):
  generateDocumentId, the document-building step of indexDocument, and the
  validation/chunking stage of indexDocument.
- SemanticChunker (strategies/chunking/semantic-chunker.strategy.ts).
- HybridSearchStrategy.reciprocalRankFusion (strategies/search/hybrid-search.strategy.ts,
  identical in the unnamed production variant).
- CrossEncoderReranker.rerankWithMMR (strategies/reranking/cross-encoder-reranker.strategy.ts).
- OpenAIEmbeddingProvider (production variant): embedWithRetry, validateEmbeddings.

Modelling conventions:
- JavaScript numbers are modelled as rationals; the claims under study are
  order-theoretic and algebraic, not about float rounding.
- JavaScript `Array.prototype.sort` is stable; it is modelled by the stable
  `List.insertionSort` (any two stable sorts agree on a total preorder).
- Nullable / possibly-absent values are modelled with `Option`; JavaScript
  string truthiness (`if (s)`) is `s` present and nonempty.
-/

deriving instance DecidableEq for Except

namespace Therapy

/-- Metadata attached to a stored vector document / returned search result
(interfaces/vector-store.interface.ts, the fields pgvector.adapter reads). -/
structure VectorMetadata where
  sessionId : String
  therapistId : String
  clientId : String
  timestamp : String
  chunkIndex : Nat
  totalChunks : Nat
  contextSummary : Option String
deriving DecidableEq, Repr

/-- A search hit as produced by the vector store (SearchResult). -/
structure SearchResult where
  id : String
  score : ℚ
  text : String
  embedding : List ℚ
  metadata : VectorMetadata
deriving DecidableEq, Repr

/-- A chunk-level document handed to the store (VectorDocument). -/
structure VectorDocument where
  id : String
  embedding : List ℚ
  text : String
  metadata : VectorMetadata
deriving DecidableEq, Repr

/-- A row of the session_chunks table (entities/session-chunk.entity.ts;
nullable columns are Options, matching the `?? / ||` guards in the adapter). -/
structure SessionChunk where
  id : String
  sessionId : String
  therapistId : Option String
  clientId : Option String
  timestamp : Option String
  chunkIndex : Nat
  totalChunks : Nat
  text : String
  contextSummary : Option String
  embedding : List ℚ
deriving DecidableEq, Repr

/-- The metadata filter accepted by PgVectorAdapter.search
(Partial of VectorMetadata; only the fields the adapter consults). -/
structure SearchFilter where
  therapistId : Option String := none
  sessionId : Option String := none
  sessionIds : Option (List String) := none
deriving DecidableEq, Repr

/-- Math.min on rationals (spelled out so that it evaluates by reduction). -/
def ratMin (a b : ℚ) : ℚ := if a ≤ b then a else b

/-- Math.max on rationals (spelled out so that it evaluates by reduction). -/
def ratMax (a b : ℚ) : ℚ := if a ≤ b then b else a

/-- Math.max lo (Math.min hi x), the clamp used by the similarity functions. -/
def clamp (lo hi x : ℚ) : ℚ := ratMax lo (ratMin hi x)

/-- PgVectorAdapter.dotProductSimilarity: returns 0 on a dimension mismatch
(after logging a warning — no exception), otherwise the dot product clamped
to the interval from -1 to 1. -/
def dotProductSimilarity (vecA vecB : List ℚ) : ℚ :=
  if vecA.length ≠ vecB.length then 0
  else clamp (-1) 1 ((List.zip vecA vecB).foldl (fun s p => s + p.1 * p.2) 0)

/-- The query-builder filters of searchWithJavaScript: therapistId equality
when the filter names a (truthy, i.e. nonempty) therapist, then sessionIds
IN-list when a nonempty array is given, else sessionId equality when truthy. -/
def therapistFiltered (filter : SearchFilter) (chunks : List SessionChunk) :
    List SessionChunk :=
  match filter.therapistId with
  | some t => if t ≠ "" then chunks.filter (fun c => c.therapistId = some t) else chunks
  | none => chunks

/-- The session part of the query-builder filters, applied on top of the
therapist filter. -/
def applyFilter (filter : SearchFilter) (chunks : List SessionChunk) :
    List SessionChunk :=
  let afterTherapist := therapistFiltered filter chunks
  match filter.sessionIds with
  | some ids =>
      if ids ≠ [] then afterTherapist.filter (fun c => c.sessionId ∈ ids)
      else
        match filter.sessionId with
        | some s => if s ≠ "" then afterTherapist.filter (fun c => c.sessionId = s) else afterTherapist
        | none => afterTherapist
  | none =>
      match filter.sessionId with
      | some s => if s ≠ "" then afterTherapist.filter (fun c => c.sessionId = s) else afterTherapist
      | none => afterTherapist

/-- The per-chunk mapping step of searchWithJavaScript: score each chunk by
dot-product similarity and expose its columns as result metadata, with the
null-coalescing defaults of the source. -/
def chunkToResult (queryEmbedding : List ℚ) (c : SessionChunk) : SearchResult :=
  { id := c.id
    score := dotProductSimilarity queryEmbedding c.embedding
    text := c.text
    embedding := c.embedding
    metadata :=
      { sessionId := c.sessionId
        therapistId := c.therapistId.getD ""
        clientId := c.clientId.getD ""
        timestamp := c.timestamp.getD ""
        chunkIndex := c.chunkIndex
        totalChunks := c.totalChunks
        contextSummary := c.contextSummary } }

/-- Descending-score comparison used by the sorts of the adapter and the
fusion step (JS comparator (a, b) => b.score - a.score). -/
def scoreDesc (a b : SearchResult) : Prop := b.score ≤ a.score

instance : DecidableRel scoreDesc := fun a b => inferInstanceAs (Decidable (b.score ≤ a.score))

instance : IsTotal SearchResult scoreDesc := ⟨fun a b => le_total b.score a.score⟩

instance : IsTrans SearchResult scoreDesc :=
  ⟨fun _ _ _ h1 h2 => le_trans h2 h1⟩

/-- The scored candidate list of searchWithJavaScript before thresholding. -/
def searchCandidates (chunks : List SessionChunk) (queryEmbedding : List ℚ)
    (filter : SearchFilter) : List SearchResult :=
  (applyFilter filter chunks).map (chunkToResult queryEmbedding)

/-- Candidates at or above the minimum similarity, sorted by descending
score (stable, as the JS sort is). -/
def searchSorted (chunks : List SessionChunk) (queryEmbedding : List ℚ)
    (filter : SearchFilter) (minSimilarity : ℚ) : List SearchResult :=
  List.insertionSort scoreDesc
    ((searchCandidates chunks queryEmbedding filter).filter
      (fun r => minSimilarity ≤ r.score))

/-- PgVectorAdapter.searchWithJavaScript: filter by metadata, score every
remaining chunk, drop scores below minSimilarity, sort by descending score,
and only then truncate to the limit. -/
def searchWithJavaScript (chunks : List SessionChunk) (queryEmbedding : List ℚ)
    (limit : Nat) (filter : SearchFilter) (minSimilarity : ℚ) : List SearchResult :=
  (searchSorted chunks queryEmbedding filter minSimilarity).take limit

/-- The row PgVectorAdapter.upsert builds from a VectorDocument (the
create call; createdAt/updatedAt bookkeeping is not modelled). -/
def docToChunk (doc : VectorDocument) : SessionChunk :=
  { id := doc.id
    sessionId := doc.metadata.sessionId
    therapistId := some doc.metadata.therapistId
    clientId := some doc.metadata.clientId
    timestamp := some doc.metadata.timestamp
    chunkIndex := doc.metadata.chunkIndex
    totalChunks := doc.metadata.totalChunks
    text := doc.text
    contextSummary := doc.metadata.contextSummary
    embedding := doc.embedding }

/-- PgVectorAdapter.upsert: saving a row whose primary key already exists
updates that row in place, otherwise a new row is inserted. No validation of
any kind is performed on the document. -/
def upsert (store : List SessionChunk) (doc : VectorDocument) : List SessionChunk :=
  if store.any (fun c => c.id = doc.id) then
    store.map (fun c => if c.id = doc.id then docToChunk doc else c)
  else store ++ [docToChunk doc]

/-- PgVectorAdapter.upsertBatch: upsert the documents one after another
(inside one transaction in the source). -/
def upsertBatch (store : List SessionChunk) (docs : List VectorDocument) :
    List SessionChunk :=
  docs.foldl upsert store

/-- RAGService.generateDocumentId: deterministic chunk id, sessionId then
the literal text _chunk_ then the chunk index. -/
def generateDocumentId (sessionId : String) (chunkIndex : Nat) : String :=
  sessionId ++ "_chunk_" ++ toString chunkIndex

/-- The session-level metadata RAGService.indexDocument copies into every
chunk document. -/
structure IndexMetaInfo where
  therapistId : String
  clientId : String
  timestamp : String
deriving DecidableEq, Repr

/-- Step 3 of RAGService.indexDocument: turn the chunk texts (paired with
their embeddings) into vector documents with deterministic ids. -/
def buildVectorDocuments (sessionId : String) (info : IndexMetaInfo)
    (chunks : List (String × List ℚ)) : List VectorDocument :=
  chunks.enum.map (fun p =>
    { id := generateDocumentId sessionId p.1
      embedding := p.2.2
      text := p.2.1
      metadata :=
        { sessionId := sessionId
          therapistId := info.therapistId
          clientId := info.clientId
          timestamp := info.timestamp
          chunkIndex := p.1
          totalChunks := chunks.length
          contextSummary := none } })

/-! SemanticChunker (strategies/chunking/semantic-chunker.strategy.ts).
Text is modelled as a list of characters so that the string operations of
the source (split on newline, trim, lowercase, startsWith) evaluate by
reduction; each is embedded as the corresponding character-list operation.
Token counting delegates to tiktoken in the source; it is abstracted here as
a function parameter, and the sentence splitter (a regex routine with an
abbreviation placeholder pass) likewise, constrained where a theorem needs a
fact about it. Every claim proved below holds for every such function. -/

/-- Document text, as a list of characters. -/
abbrev Str := List Char

/-- JavaScript String.prototype.split with separator newline: the segments
between newline characters, in order; the empty text yields one empty
segment, as in JavaScript. -/
def splitNewline : Str → List Str
  | [] => [[]]
  | ch :: rest =>
      match splitNewline rest with
      | [] => [[ch]]
      | seg :: segs =>
          if ch = '\n' then [] :: seg :: segs else (ch :: seg) :: segs

/-- JavaScript String.prototype.trim: strip whitespace from both ends. -/
def strTrim (s : Str) : Str :=
  ((s.dropWhile Char.isWhitespace).reverse.dropWhile Char.isWhitespace).reverse

/-- JavaScript String.prototype.toLowerCase, on the characters the chunker
compares (ASCII speaker labels). -/
def strToLower (s : Str) : Str := s.map Char.toLower

/-- Chunker environment: countTokens (tiktoken with a length-based fallback)
and splitIntoSentences, abstracted from the source as explained above. -/
structure ChunkerEnv where
  countTokens : Str → Nat
  splitIntoSentences : Str → List Str

/-- SemanticChunker.maxChunkSize: 512 tokens. -/
def maxChunkSize : Nat := 512

/-- SemanticChunker.overlap: 50 tokens carried into the next chunk. -/
def chunkOverlap : Nat := 50

/-- Does a digit run followed by a colon start this string (the suffix check
of the speaker N alternative of the speaker regex). -/
def speakerNumColon (s : Str) : Bool :=
  let ds := s.takeWhile Char.isDigit
  ds ≠ [] && (':' :: []).isPrefixOf (s.drop ds.length)

/-- Does the speaker regex of SemanticChunker (therapist, client or
speaker N followed by a colon, case-insensitive) match at the start of the
line. -/
def lineHasSpeakerTurn (line : Str) : Bool :=
  let l := strToLower line
  "therapist:".toList.isPrefixOf l || "client:".toList.isPrefixOf l ||
    ("speaker ".toList.isPrefixOf l && speakerNumColon (l.drop 8))

/-- SemanticChunker.detectSpeakerTurns: multiline regex test, i.e. some line
of the text starts with a speaker label. -/
def detectSpeakerTurns (text : Str) : Bool :=
  (splitNewline text).any lineHasSpeakerTurn

/-- SemanticChunker.extractSpeaker: the lowercased speaker label at the start
of the line, or none. -/
def extractSpeaker (line : Str) : Option Str :=
  let l := strToLower line
  if "therapist:".toList.isPrefixOf l then some "therapist".toList
  else if "client:".toList.isPrefixOf l then some "client".toList
  else if "speaker ".toList.isPrefixOf l && speakerNumColon (l.drop 8) then
    some ("speaker ".toList ++ (l.drop 8).takeWhile Char.isDigit)
  else none

/-- SemanticChunker.isCompleteExchange: at least two lines and the last two
lines carry distinct, both recognised, speakers. -/
def isCompleteExchange (lines : List Str) : Bool :=
  if lines.length < 2 then false
  else
    match lines.getLast?, lines.dropLast.getLast? with
    | some lastLine, some secondLastLine =>
        let ls := extractSpeaker lastLine
        let ss := extractSpeaker secondLastLine
        decide (ls ≠ ss) && ls.isSome && ss.isSome
    | _, _ => false

/-- Backwards accumulation shared by getOverlapLines and
getOverlapSentences: walk the items from the end, stop as soon as the
overlap token budget would be exceeded. Takes the items in reverse order. -/
def overlapGo (countTokens : Str → Nat) : List Str → List Str → Nat → List Str
  | [], acc, _ => acc
  | item :: rest, acc, tokens =>
      if chunkOverlap < tokens + countTokens item then acc
      else overlapGo countTokens rest (item :: acc) (tokens + countTokens item)

/-- SemanticChunker.getOverlapLines. -/
def getOverlapLines (countTokens : Str → Nat) (lines : List Str) : List Str :=
  overlapGo countTokens lines.reverse [] 0

/-- SemanticChunker.getOverlapSentences (same algorithm as getOverlapLines
in the source). -/
def getOverlapSentences (countTokens : Str → Nat) (sentences : List Str) : List Str :=
  overlapGo countTokens sentences.reverse [] 0

/-- Newline join of the accumulated lines of a dialogue chunk. -/
def joinLines (lines : List Str) : Str := List.intercalate "\n".toList lines

/-- Space join of the accumulated sentences of a sentence chunk. -/
def joinSentences (sentences : List Str) : Str := List.intercalate " ".toList sentences

/-- The loop of SemanticChunker.chunkByDialogue over the nonempty lines:
state is the pending chunk, its token count, and the finished chunks. -/
def dialogueGo (countTokens : Str → Nat) :
    List Str → List Str → Nat → List Str → List Str
  | [], currentChunk, _, chunks =>
      if currentChunk ≠ [] then chunks ++ [joinLines currentChunk] else chunks
  | line :: rest, currentChunk, currentTokens, chunks =>
      let lineTokens := countTokens line
      if maxChunkSize < currentTokens + lineTokens ∧ currentChunk ≠ [] then
        if isCompleteExchange currentChunk then
          let newChunks := chunks ++ [joinLines currentChunk]
          let newChunk := getOverlapLines countTokens currentChunk ++ [line]
          dialogueGo countTokens rest newChunk
            (countTokens (joinLines newChunk)) newChunks
        else
          let finished := currentChunk ++ [line]
          dialogueGo countTokens rest [] 0 (chunks ++ [joinLines finished])
      else
        dialogueGo countTokens rest (currentChunk ++ [line])
          (currentTokens + lineTokens) chunks

/-- SemanticChunker.chunkByDialogue: split into nonempty lines, run the
accumulation loop, and keep only chunks with nonempty trimmed text. -/
def chunkByDialogue (countTokens : Str → Nat) (text : Str) : List Str :=
  let lines := (splitNewline text).filter (fun l => strTrim l ≠ [])
  (dialogueGo countTokens lines [] 0 []).filter (fun c => strTrim c ≠ [])

/-- The loop of SemanticChunker.chunkBySentences over the sentences. -/
def sentencesGo (countTokens : Str → Nat) :
    List Str → List Str → Nat → List Str → List Str
  | [], currentChunk, _, chunks =>
      if currentChunk ≠ [] then chunks ++ [joinSentences currentChunk] else chunks
  | sentence :: rest, currentChunk, currentTokens, chunks =>
      let sentenceTokens := countTokens sentence
      if maxChunkSize < currentTokens + sentenceTokens ∧ currentChunk ≠ [] then
        let newChunks := chunks ++ [joinSentences currentChunk]
        let newChunk := getOverlapSentences countTokens currentChunk ++ [sentence]
        sentencesGo countTokens rest newChunk
          (countTokens (joinSentences newChunk)) newChunks
      else
        sentencesGo countTokens rest (currentChunk ++ [sentence])
          (currentTokens + sentenceTokens) chunks

/-- SemanticChunker.chunkBySentences: split into sentences, accumulate into
token-bounded chunks, and keep only chunks with nonempty trimmed text. -/
def chunkBySentences (env : ChunkerEnv) (text : Str) : List Str :=
  (sentencesGo env.countTokens (env.splitIntoSentences text) [] 0 []).filter
    (fun c => strTrim c ≠ [])

/-- SemanticChunker.chunkText: dialogue-aware chunking when speaker turns are
detected, sentence-based chunking otherwise. Note that the decision and the
chunks depend only on the text, never on any metadata. -/
def chunkText (env : ChunkerEnv) (text : Str) : List Str :=
  if detectSpeakerTurns text then chunkByDialogue env.countTokens text
  else chunkBySentences env text

/-- A structured speaker turn as stored by the sessions module
(entities/session-entry.entity.ts, the fields the RAG path would need). -/
structure SessionEntry where
  speaker : String
  content : String
deriving DecidableEq, Repr

/-- The metadata record passed to RAGService.indexDocument (an open bag in
the source; the fields the pipeline consults). -/
structure IndexMetadata where
  sessionId : Option String := none
  therapistId : Option String := none
  clientId : Option String := none
  timestamp : Option String := none
  sessionEntries : Option (List SessionEntry) := none
deriving DecidableEq, Repr

/-- One element of SemanticChunker.process output (ProcessedChunk; the
metadata spread is modelled by carrying the incoming metadata record). -/
structure ProcessedChunk where
  text : Str
  meta : IndexMetadata
  chunkIndex : Nat
  totalChunks : Nat
  chunkSize : Nat
  tokenCount : Nat
  index : Nat
deriving DecidableEq, Repr

/-- SemanticChunker.process: chunk the text (the chunker has no next
processor in the assembled module) and decorate each chunk with positional
metadata. The metadata argument is only copied into the output; in
particular sessionEntries is never consulted. -/
def SemanticChunker.process (env : ChunkerEnv) (text : Str)
    (metadata : IndexMetadata) : List ProcessedChunk :=
  let chunks := chunkText env text
  chunks.enum.map (fun p =>
    { text := p.2
      meta := metadata
      chunkIndex := p.1
      totalChunks := chunks.length
      chunkSize := p.2.length
      tokenCount := env.countTokens p.2
      index := p.1 })

/-- JavaScript truthiness of an optional string (present and nonempty). -/
def optStringTruthy : Option String → Bool
  | some s => s ≠ ""
  | none => false

/-- The validation and chunking stage of RAGService.indexDocument: require
text or nonempty sessionEntries, require a sessionId, chunk, and fail when
chunking produced nothing. Later stages (embedding, storage) are reached
only through the ok branch. -/
def indexDocumentChunks (env : ChunkerEnv) (text : Str)
    (metadata : IndexMetadata) : Except String (List ProcessedChunk) :=
  let hasText : Bool := strTrim text != []
  let hasSessionEntries : Bool :=
    match metadata.sessionEntries with
    | some entries => entries != []
    | none => false
  if !hasText && !hasSessionEntries then
    .error "Either text content or sessionEntries is required for indexing"
  else if !optStringTruthy metadata.sessionId then
    .error "SessionId is required in metadata"
  else
    let chunks := SemanticChunker.process env text metadata
    if chunks.length = 0 then .error "Document chunking produced no results"
    else .ok chunks

/-! OpenAIEmbeddingProvider (production variant, unnamed source file):
declared dimensionality, embedding validation, and the retry loop. -/

/-- OpenAIEmbeddingProvider.dimensions: 1024. -/
def openAIDimensions : Nat := 1024

/-- OpenAIEmbeddingProvider.maxRetries: 3 retries after the first attempt. -/
def maxRetries : Nat := 3

/-- OpenAIEmbeddingProvider.initialRetryDelay: 1000 ms. -/
def initialRetryDelay : Nat := 1000

/-- OpenAIEmbeddingProvider.validateEmbeddings, acceptance behaviour: an
embedding whose length differs from the declared dimensionality raises. The
remaining body never raises in this model: the finiteness check cannot fail
over the rationals, and the defensive renormalisation for a norm far from 1
only rewrites values in place. -/
def validateEmbeddings (dims : Nat) : List (List ℚ) → Except String Unit
  | [] => .ok ()
  | emb :: rest =>
      if emb.length ≠ dims then .error "Invalid embedding dimensions"
      else validateEmbeddings dims rest

/-- An error caught by embedWithRetry: HTTP status and error code when the
failure object carries them (a thrown validation Error carries neither). -/
structure ApiError where
  status : Option Nat := none
  code : Option String := none
  message : String := ""
deriving DecidableEq, Repr

/-- The retriable-error test of embedWithRetry: status 429, a (truthy)
status of 500 or more, or the ETIMEDOUT code. -/
def isRetriableError (e : ApiError) : Bool :=
  e.status = some 429 ||
    (match e.status with
     | some s => decide (500 ≤ s)
     | none => false) ||
    e.code = some "ETIMEDOUT"

/-- OpenAIEmbeddingProvider.embedWithRetry, body of the recursion. The
provider call is modelled as a function from the attempt number to its
outcome; a successful response is validated inside the same try block, and a
validation failure (an error with neither status nor code) is therefore
never retried. The function returns the final outcome together with the
list of backoff delays slept, in milliseconds. -/
def embedRetryLoop (attempt : Nat → Except ApiError (List (List ℚ)))
    (dims : Nat) : Nat → Nat → Except String (List (List ℚ)) × List Nat
  | retry, budget =>
      match attempt retry with
      | .ok embeddings =>
          match validateEmbeddings dims embeddings with
          | .ok _ => (.ok embeddings, [])
          | .error msg => (.error ("Embedding failed: " ++ msg), [])
      | .error e =>
          if isRetriableError e then
            match budget with
            | 0 => (.error ("Embedding failed: " ++ e.message), [])
            | budget + 1 =>
                let delay := initialRetryDelay * 2 ^ retry
                let rest := embedRetryLoop attempt dims (retry + 1) budget
                (rest.1, delay :: rest.2)
          else (.error ("Embedding failed: " ++ e.message), [])

/-- Entry point of the retry loop at a given retry counter: the remaining
budget maxRetries - retry encodes the guard retry < maxRetries of the
source (the budget is positive exactly when another retry is allowed). -/
def embedWithRetry (attempt : Nat → Except ApiError (List (List ℚ)))
    (dims : Nat) (retry : Nat) : Except String (List (List ℚ)) × List Nat :=
  embedRetryLoop attempt dims retry (maxRetries - retry)

/-! HybridSearchStrategy.reciprocalRankFusion. The JavaScript Map of fused
scores is modelled by an insertion-ordered association list with the Map
update semantics (set on an existing key updates in place, otherwise
appends); the final step of the source, replacing every id by its stored
document with the fused score, preserves ids, scores and positions, so the
theorems are stated on the ranked (id, score) entries. -/

/-- Map.get on the association-list model. -/
def mget (m : List (String × ℚ)) (id : String) : Option ℚ :=
  (m.find? (fun p => p.1 = id)).map (fun p => p.2)

/-- Map.set on the association-list model: update in place when the key
exists (keeping insertion order), append otherwise. -/
def mset (m : List (String × ℚ)) (id : String) (v : ℚ) : List (String × ℚ) :=
  if m.any (fun p => p.1 = id) then
    m.map (fun p => if p.1 = id then (id, v) else p)
  else m ++ [(id, v)]

/-- The forEach loop of reciprocalRankFusion over one ranked list: each id
at rank r (counted from the given starting rank) accumulates
weight / (k + r + 1) onto its current score. -/
def rrfAdd (weight k : ℚ) : Nat → List String → List (String × ℚ) → List (String × ℚ)
  | _, [], m => m
  | rank, id :: ids, m =>
      rrfAdd weight k (rank + 1) ids
        (mset m id ((mget m id).getD 0 + weight / (k + (rank : ℚ) + 1)))

/-- The fused score map of reciprocalRankFusion: semantic results scored
with weight alpha, then keyword results with weight 1 - alpha. -/
def rrfScoreMap (semanticResults keywordResults : List SearchResult)
    (alpha k : ℚ) : List (String × ℚ) :=
  rrfAdd (1 - alpha) k 0 (keywordResults.map (fun r => r.id))
    (rrfAdd alpha k 0 (semanticResults.map (fun r => r.id)) [])

/-- Descending comparison on fused (id, score) entries. -/
def entryDesc (a b : String × ℚ) : Prop := b.2 ≤ a.2

instance : DecidableRel entryDesc := fun a b => inferInstanceAs (Decidable (b.2 ≤ a.2))

instance : IsTotal (String × ℚ) entryDesc := ⟨fun a b => le_total b.2 a.2⟩

instance : IsTrans (String × ℚ) entryDesc := ⟨fun _ _ _ h1 h2 => le_trans h2 h1⟩

/-- HybridSearchStrategy.reciprocalRankFusion, as the ranked (id, fused
score) entries: the score map sorted by descending fused score (stable,
like the JS sort over the insertion-ordered Map entries). -/
def reciprocalRankFusion (semanticResults keywordResults : List SearchResult)
    (alpha k : ℚ) : List (String × ℚ) :=
  List.insertionSort entryDesc (rrfScoreMap semanticResults keywordResults alpha k)

/-- Rank of the first occurrence of an id in a ranked id list (the forEach
index of the source; meaningful under Nodup). -/
def rankOf (id : String) : List String → Nat
  | [] => 0
  | x :: xs => if x = id then 0 else rankOf id xs + 1

/-! CrossEncoderReranker.rerankWithMMR. The pairwise similarity helper
computeMaxSimilarity (dot product when both sides carry embeddings, else a
term-frequency cosine on the texts) is abstracted as a function parameter;
every theorem below holds for every such function. -/

/-- A placeholder result used only as the default of a guarded list index
(never reached when the index is in bounds). -/
def dummyResult : SearchResult :=
  { id := ""
    score := 0
    text := ""
    embedding := []
    metadata :=
      { sessionId := ""
        therapistId := ""
        clientId := ""
        timestamp := ""
        chunkIndex := 0
        totalChunks := 0
        contextSummary := none } }

/-- The MMR objective of one candidate against the already selected list:
lambda times relevance minus (1 - lambda) times the maximal similarity. -/
def mmrScore (lambda : ℚ) (sim : SearchResult → List SearchResult → ℚ)
    (selected : List SearchResult) (doc : SearchResult) : ℚ :=
  lambda * doc.score - (1 - lambda) * sim doc selected

/-- The argmax scan of the MMR loop after seeding with the first candidate:
strict improvement over the running best, so the first maximum wins. -/
def bestIndexGo (f : SearchResult → ℚ) :
    List SearchResult → Nat → Nat → ℚ → Nat
  | [], _, bestIdx, _ => bestIdx
  | d :: rest, i, bestIdx, bestScore =>
      if bestScore < f d then bestIndexGo f rest (i + 1) i (f d)
      else bestIndexGo f rest (i + 1) bestIdx bestScore

/-- The argmax of the MMR loop over the remaining candidates. The JS loop
starts from bestScore minus infinity, so the first candidate always becomes
the initial best; that seeding is explicit here. -/
def bestIndex (f : SearchResult → ℚ) : List SearchResult → Nat
  | [] => 0
  | d :: rest => bestIndexGo f rest 1 0 (f d)

/-- The while loop of rerankWithMMR: while fewer than topK results are
selected and candidates remain, move the best-scoring remaining candidate
into the selection. The fuel argument only bounds the recursion; it is
always called with at least the length of the remaining list, which the
loop strictly decreases. -/
def rerankGo (sim : SearchResult → List SearchResult → ℚ) (lambda : ℚ)
    (topK : Nat) : Nat → List SearchResult → List SearchResult → List SearchResult
  | 0, selected, _ => selected
  | fuel + 1, selected, remaining =>
      if selected.length < topK ∧ remaining ≠ [] then
        let i := bestIndex (mmrScore lambda sim selected) remaining
        rerankGo sim lambda topK fuel (selected ++ [remaining.getD i dummyResult])
          (remaining.eraseIdx i)
      else selected

/-- CrossEncoderReranker.rerankWithMMR: empty input gives the empty list;
otherwise the most relevant (first) candidate is seeded unconditionally —
before the topK guard is consulted — and the loop fills the rest. -/
def rerankWithMMR (sim : SearchResult → List SearchResult → ℚ)
    (results : List SearchResult) (lambda : ℚ) (topK : Nat) : List SearchResult :=
  match results with
  | [] => []
  | first :: rest => rerankGo sim lambda topK rest.length [first] rest

/-- Modelled from the spec: truncating the relevance-sorted candidate list
to topK items, the ranking MMR with lambda one is claimed to reduce to
(stable sort by descending score, then take topK). -/
def specRelevanceTruncate (results : List SearchResult) (topK : Nat) :
    List SearchResult :=
  (List.insertionSort scoreDesc results).take topK

end Therapy

/-! Theorems. Helper lemmas first, then one theorem (with witness or
counterexample where required) per verified claim. -/

namespace Therapy

theorem docToChunk_id (doc : VectorDocument) : (docToChunk doc).id = doc.id := rfl

theorem upsert_any_iff (store : List SessionChunk) (doc : VectorDocument) :
    store.any (fun c => c.id = doc.id) = true ↔
      doc.id ∈ store.map (fun c => c.id) := by
  simp [List.any_eq_true, List.mem_map]

theorem upsert_map_id (store : List SessionChunk) (doc : VectorDocument) :
    (upsert store doc).map (fun c => c.id) =
      if doc.id ∈ store.map (fun c => c.id) then store.map (fun c => c.id)
      else store.map (fun c => c.id) ++ [doc.id] := by
  by_cases h : doc.id ∈ store.map (fun c => c.id)
  · rw [if_pos h]
    unfold upsert
    rw [if_pos ((upsert_any_iff store doc).mpr h)]
    rw [List.map_map]
    apply List.map_congr_left
    intro c _
    by_cases hc : c.id = doc.id <;> simp [hc, docToChunk_id]
  · rw [if_neg h]
    unfold upsert
    rw [if_neg]
    · simp [docToChunk_id]
    · intro hany
      exact h ((upsert_any_iff store doc).mp hany)

theorem mem_ids_upsert (store : List SessionChunk) (doc : VectorDocument)
    (x : String) (h : x ∈ store.map (fun c => c.id)) :
    x ∈ (upsert store doc).map (fun c => c.id) := by
  rw [upsert_map_id]
  split
  · exact h
  · exact List.mem_append_left _ h

theorem id_mem_upsert_self (store : List SessionChunk) (doc : VectorDocument) :
    doc.id ∈ (upsert store doc).map (fun c => c.id) := by
  rw [upsert_map_id]
  split
  · assumption
  · exact List.mem_append_right _ (List.mem_singleton_self _)

theorem upsert_nodup (store : List SessionChunk) (doc : VectorDocument)
    (h : (store.map (fun c => c.id)).Nodup) :
    ((upsert store doc).map (fun c => c.id)).Nodup := by
  rw [upsert_map_id]
  split
  · exact h
  · next hmem => simp [List.nodup_append, h, hmem]

theorem upsertBatch_nodup (docs : List VectorDocument) :
    ∀ store : List SessionChunk, (store.map (fun c => c.id)).Nodup →
      ((upsertBatch store docs).map (fun c => c.id)).Nodup := by
  induction docs with
  | nil => intro store h; exact h
  | cons d ds ih =>
      intro store h
      exact ih (upsert store d) (upsert_nodup store d h)

theorem mem_ids_upsertBatch (docs : List VectorDocument) :
    ∀ (store : List SessionChunk) (x : String),
      x ∈ store.map (fun c => c.id) →
      x ∈ (upsertBatch store docs).map (fun c => c.id) := by
  induction docs with
  | nil => intro store x h; exact h
  | cons d ds ih =>
      intro store x h
      exact ih (upsert store d) x (mem_ids_upsert store d x h)

theorem doc_id_mem_upsertBatch (docs : List VectorDocument) :
    ∀ (store : List SessionChunk) (d : VectorDocument), d ∈ docs →
      d.id ∈ (upsertBatch store docs).map (fun c => c.id) := by
  induction docs with
  | nil => intro _ _ h; cases h
  | cons d0 ds ih =>
      intro store d hd
      rcases List.mem_cons.mp hd with h | h
      · subst h
        exact mem_ids_upsertBatch ds (upsert store d) d.id (id_mem_upsert_self store d)
      · exact ih (upsert store d0) d h

theorem upsertBatch_ids_of_subset (docs : List VectorDocument) :
    ∀ store : List SessionChunk,
      (∀ d ∈ docs, d.id ∈ store.map (fun c => c.id)) →
      (upsertBatch store docs).map (fun c => c.id) = store.map (fun c => c.id) := by
  induction docs with
  | nil => intro store _; rfl
  | cons d ds ih =>
      intro store h
      have hd : d.id ∈ store.map (fun c => c.id) := h d (List.mem_cons_self d ds)
      have hup : (upsert store d).map (fun c => c.id) = store.map (fun c => c.id) := by
        rw [upsert_map_id, if_pos hd]
      calc (upsertBatch (upsert store d) ds).map (fun c => c.id)
          = (upsert store d).map (fun c => c.id) := by
            refine ih (upsert store d) (fun d2 hd2 => ?_)
            rw [hup]
            exact h d2 (List.mem_cons_of_mem d hd2)
        _ = store.map (fun c => c.id) := hup

theorem buildVectorDocuments_map_id (sessionId : String) (info : IndexMetaInfo)
    (chunks : List (String × List ℚ)) :
    (buildVectorDocuments sessionId info chunks).map (fun d => d.id)
      = (List.range chunks.length).map (generateDocumentId sessionId) := by
  unfold buildVectorDocuments
  rw [List.map_map]
  have h1 : ((fun d : VectorDocument => d.id) ∘ fun p : Nat × (String × List ℚ) =>
      ({ id := generateDocumentId sessionId p.1
         embedding := p.2.2
         text := p.2.1
         metadata :=
           { sessionId := sessionId
             therapistId := info.therapistId
             clientId := info.clientId
             timestamp := info.timestamp
             chunkIndex := p.1
             totalChunks := chunks.length
             contextSummary := none } } : VectorDocument))
      = (generateDocumentId sessionId) ∘ Prod.fst := rfl
  rw [h1, ← List.map_map, List.enum_map_fst]

/-- C1: chunk ids are the pure function sessionId_chunk_index of the
session and the chunk position, and upserting by those ids never creates a
duplicate row: after indexing a document, the stored ids are free of
duplicates, and re-indexing the same document with at most as many chunks
(same or different content) leaves the set of stored ids exactly unchanged
— existing rows are updated, none are added. -/
theorem indexing_upserts_never_duplicates (sessionId : String)
    (info1 info2 : IndexMetaInfo) (chunks1 chunks2 : List (String × List ℚ))
    (store : List SessionChunk)
    (hstore : (store.map (fun c => c.id)).Nodup)
    (hlen : chunks2.length ≤ chunks1.length) :
    (buildVectorDocuments sessionId info1 chunks1).map (fun d => d.id)
        = (List.range chunks1.length).map (generateDocumentId sessionId) ∧
    ((upsertBatch store (buildVectorDocuments sessionId info1 chunks1)).map
        (fun c => c.id)).Nodup ∧
    (upsertBatch (upsertBatch store (buildVectorDocuments sessionId info1 chunks1))
          (buildVectorDocuments sessionId info2 chunks2)).map (fun c => c.id)
      = (upsertBatch store (buildVectorDocuments sessionId info1 chunks1)).map
          (fun c => c.id) := by
  refine ⟨buildVectorDocuments_map_id sessionId info1 chunks1, ?_, ?_⟩
  · exact upsertBatch_nodup _ store hstore
  · apply upsertBatch_ids_of_subset
    intro d hd
    have hid : d.id ∈ (buildVectorDocuments sessionId info2 chunks2).map
        (fun d => d.id) := List.mem_map_of_mem _ hd
    rw [buildVectorDocuments_map_id] at hid
    rcases List.mem_map.mp hid with ⟨i, hi, hgen⟩
    have hi1 : i ∈ List.range chunks1.length := by
      rw [List.mem_range] at hi ⊢
      omega
    have : d.id ∈ (buildVectorDocuments sessionId info1 chunks1).map
        (fun d => d.id) := by
      rw [buildVectorDocuments_map_id]
      exact hgen ▸ List.mem_map_of_mem _ hi1
    rcases List.mem_map.mp this with ⟨d1, hd1, hde⟩
    exact hde ▸ doc_id_mem_upsertBatch _ store d1 hd1

/-- C1 witness: a concrete store, first index with two chunks, re-index with
one chunk; the hypotheses hold and the id bookkeeping is as stated. -/
theorem indexing_upserts_never_duplicates_witness :
    ((([] : List SessionChunk).map (fun c => c.id)).Nodup ∧
      ([("b", [(1 : ℚ)])] : List (String × List ℚ)).length ≤
        ([("a", [(1 : ℚ)]), ("b", [2])] : List (String × List ℚ)).length) ∧
    ((buildVectorDocuments "s1" ⟨"t1", "c1", "now"⟩ [("a", [1]), ("b", [2])]).map
          (fun d => d.id)
        = (List.range 2).map (generateDocumentId "s1") ∧
      ((upsertBatch [] (buildVectorDocuments "s1" ⟨"t1", "c1", "now"⟩
            [("a", [1]), ("b", [2])])).map (fun c => c.id)).Nodup ∧
      (upsertBatch (upsertBatch []
            (buildVectorDocuments "s1" ⟨"t1", "c1", "now"⟩ [("a", [1]), ("b", [2])]))
            (buildVectorDocuments "s1" ⟨"t1", "c1", "now"⟩ [("b", [1])])).map
          (fun c => c.id)
        = (upsertBatch [] (buildVectorDocuments "s1" ⟨"t1", "c1", "now"⟩
            [("a", [1]), ("b", [2])])).map (fun c => c.id)) :=
  ⟨⟨by decide, by decide⟩,
    indexing_upserts_never_duplicates "s1" ⟨"t1", "c1", "now"⟩ ⟨"t1", "c1", "now"⟩
      [("a", [1]), ("b", [2])] [("b", [1])] [] (by decide) (by decide)⟩

end Therapy

namespace Therapy

/-- C4 counterexample: the store itself performs no dimensionality check.
Upserting a 2-dimensional embedding while the provider declares 1024
dimensions succeeds and the mismatched document is persisted verbatim,
refuting the claim that upsert rejects it before storage. -/
theorem upsert_accepts_mismatched_embedding :
    ((⟨"s1_chunk_0", [1, 0], "t",
        ⟨"s1", "t1", "c1", "now", 0, 1, none⟩⟩ : VectorDocument).embedding.length
      ≠ openAIDimensions) ∧
    upsert [] ⟨"s1_chunk_0", [1, 0], "t", ⟨"s1", "t1", "c1", "now", 0, 1, none⟩⟩
      = [docToChunk ⟨"s1_chunk_0", [1, 0], "t", ⟨"s1", "t1", "c1", "now", 0, 1, none⟩⟩] :=
  ⟨by decide, rfl⟩

/-- C4 amended: the dimensionality invariant is enforced by the embedding
provider, not by the store. validateEmbeddings accepts a batch exactly when
every embedding has the declared length (so every embedding the provider
hands to the indexing pipeline has it), while the store's upsert persists
any document unconditionally. -/
theorem embedding_dimension_validated_by_provider :
    (∀ (dims : Nat) (embeddings : List (List ℚ)),
      validateEmbeddings dims embeddings = .ok () ↔
        ∀ e ∈ embeddings, e.length = dims) ∧
    (∀ (store : List SessionChunk) (doc : VectorDocument),
      docToChunk doc ∈ upsert store doc) := by
  constructor
  · intro dims embeddings
    induction embeddings with
    | nil => simp [validateEmbeddings]
    | cons e rest ih =>
        by_cases h : e.length = dims
        · simp [validateEmbeddings, h, ih]
        · simp [validateEmbeddings, h]
  · intro store doc
    unfold upsert
    split
    · next hany =>
        rcases List.any_eq_true.mp hany with ⟨c, hc, hid⟩
        exact List.mem_map.mpr ⟨c, hc, by simp [of_decide_eq_true hid]⟩
    · exact List.mem_append_right _ (List.mem_singleton_self _)

end Therapy

namespace Therapy

theorem applyFilter_subset_therapistFiltered (filter : SearchFilter)
    (chunks : List SessionChunk) :
    applyFilter filter chunks ⊆ therapistFiltered filter chunks := by
  intro c hc
  obtain ⟨tid, sid, sids⟩ := filter
  unfold applyFilter at hc
  dsimp only at hc
  rcases sids with _ | ids
  · rcases sid with _ | s
    · exact hc
    · dsimp only at hc
      split at hc
      · exact (List.mem_filter.mp hc).1
      · exact hc
  · dsimp only at hc
    split at hc
    · exact (List.mem_filter.mp hc).1
    · rcases sid with _ | s
      · exact hc
      · dsimp only at hc
        split at hc
        · exact (List.mem_filter.mp hc).1
        · exact hc

theorem therapistFiltered_subset (filter : SearchFilter)
    (chunks : List SessionChunk) :
    therapistFiltered filter chunks ⊆ chunks := by
  intro c hc
  rcases h : filter.therapistId with _ | t
  · simp only [therapistFiltered, h] at hc; exact hc
  · simp only [therapistFiltered, h] at hc
    split at hc
    · exact (List.mem_filter.mp hc).1
    · exact hc

theorem mem_therapistFiltered_owner (filter : SearchFilter)
    (chunks : List SessionChunk) (A : String)
    (hA : filter.therapistId = some A) (hne : A ≠ "") :
    ∀ c ∈ therapistFiltered filter chunks, c.therapistId = some A := by
  intro c hc
  simp only [therapistFiltered, hA] at hc
  rw [if_pos hne] at hc
  exact of_decide_eq_true (List.mem_filter.mp hc).2

theorem mem_searchWithJavaScript (chunks : List SessionChunk)
    (queryEmbedding : List ℚ) (limit : Nat) (filter : SearchFilter)
    (minSimilarity : ℚ) (r : SearchResult)
    (h : r ∈ searchWithJavaScript chunks queryEmbedding limit filter minSimilarity) :
    r ∈ searchCandidates chunks queryEmbedding filter ∧ minSimilarity ≤ r.score := by
  have h1 : r ∈ searchSorted chunks queryEmbedding filter minSimilarity :=
    List.mem_of_mem_take h
  have h2 := (List.perm_insertionSort scoreDesc _).subset h1
  have h3 := List.mem_filter.mp h2
  exact ⟨h3.1, of_decide_eq_true h3.2⟩

/-- C2: owner isolation of the vector-store search. When the filter names a
(nonempty) therapist A, every result returned by searchWithJavaScript
carries therapistId A in its metadata; a chunk of any other owner never
appears. -/
theorem search_owner_isolation (chunks : List SessionChunk)
    (queryEmbedding : List ℚ) (limit : Nat) (filter : SearchFilter)
    (minSimilarity : ℚ) (A : String)
    (hA : filter.therapistId = some A) (hne : A ≠ "") :
    ∀ r ∈ searchWithJavaScript chunks queryEmbedding limit filter minSimilarity,
      r.metadata.therapistId = A := by
  intro r hr
  have hc := (mem_searchWithJavaScript chunks queryEmbedding limit filter
    minSimilarity r hr).1
  rcases List.mem_map.mp hc with ⟨c, hcf, hre⟩
  have hcm : c ∈ therapistFiltered filter chunks :=
    applyFilter_subset_therapistFiltered filter chunks hcf
  have hct : c.therapistId = some A :=
    mem_therapistFiltered_owner filter chunks A hA hne c hcm
  rw [← hre]
  simp [chunkToResult, hct]

/-- C2 witness: two stored chunks owned by A and B; the owner-A search
returns only results whose metadata owner is A. -/
theorem search_owner_isolation_witness :
    ((⟨some "A", none, none⟩ : SearchFilter).therapistId = some "A" ∧ "A" ≠ "") ∧
    ∀ r ∈ searchWithJavaScript
        [⟨"s1_chunk_0", "s1", some "A", none, none, 0, 1, "ta", none, [1, 0]⟩,
         ⟨"s2_chunk_0", "s2", some "B", none, none, 0, 1, "tb", none, [1, 0]⟩]
        [1, 0] 10 ⟨some "A", none, none⟩ (3 / 10),
      r.metadata.therapistId = "A" :=
  ⟨⟨rfl, by decide⟩,
    search_owner_isolation _ [1, 0] 10 ⟨some "A", none, none⟩ (3 / 10) "A" rfl
      (by decide)⟩

end Therapy

namespace Therapy

/-- C3: the minimum-similarity threshold is applied before truncation to the
limit. Every returned result scores at least minSimilarity, the result list
is sorted by descending score and has at most limit elements, and any
candidate at or above the threshold that is left out is left out only
because the list is full of results scoring at least as high — a
below-threshold match can never displace an above-threshold one. -/
theorem search_threshold_before_truncation (chunks : List SessionChunk)
    (queryEmbedding : List ℚ) (limit : Nat) (filter : SearchFilter)
    (minSimilarity : ℚ) :
    (∀ r ∈ searchWithJavaScript chunks queryEmbedding limit filter minSimilarity,
        minSimilarity ≤ r.score) ∧
    (searchWithJavaScript chunks queryEmbedding limit filter minSimilarity).Pairwise
      scoreDesc ∧
    (searchWithJavaScript chunks queryEmbedding limit filter minSimilarity).length
      ≤ limit ∧
    (∀ r, r ∈ searchCandidates chunks queryEmbedding filter →
      minSimilarity ≤ r.score →
      r ∉ searchWithJavaScript chunks queryEmbedding limit filter minSimilarity →
      (searchWithJavaScript chunks queryEmbedding limit filter minSimilarity).length
          = limit ∧
        ∀ x ∈ searchWithJavaScript chunks queryEmbedding limit filter minSimilarity,
          r.score ≤ x.score) := by
  have hsorted : (searchSorted chunks queryEmbedding filter minSimilarity).Pairwise
      scoreDesc :=
    List.sorted_insertionSort scoreDesc _
  refine ⟨?_, ?_, ?_, ?_⟩
  · intro r hr
    exact (mem_searchWithJavaScript chunks queryEmbedding limit filter minSimilarity
      r hr).2
  · exact hsorted.sublist (List.take_sublist limit _)
  · rw [searchWithJavaScript, List.length_take]
    exact min_le_left _ _
  · intro r hr hscore hnot
    have hrS : r ∈ searchSorted chunks queryEmbedding filter minSimilarity := by
      rw [searchSorted, (List.perm_insertionSort scoreDesc _).mem_iff]
      exact List.mem_filter.mpr ⟨hr, decide_eq_true hscore⟩
    have hsplit := List.take_append_drop limit
      (searchSorted chunks queryEmbedding filter minSimilarity)
    have hrd : r ∈ (searchSorted chunks queryEmbedding filter minSimilarity).drop
        limit := by
      rcases List.mem_append.mp (hsplit ▸ hrS) with h | h
      · exact absurd h hnot
      · exact h
    have hlen : limit ≤
        (searchSorted chunks queryEmbedding filter minSimilarity).length := by
      by_contra hlt
      push_neg at hlt
      rw [List.drop_eq_nil_of_le (le_of_lt hlt)] at hrd
      cases hrd
    constructor
    · rw [searchWithJavaScript, List.length_take]
      omega
    · intro x hx
      have hpa : List.Pairwise scoreDesc
          ((searchSorted chunks queryEmbedding filter minSimilarity).take limit ++
            (searchSorted chunks queryEmbedding filter minSimilarity).drop limit) := by
        rw [hsplit]; exact hsorted
      exact (List.pairwise_append.mp hpa).2.2 x hx r hrd

/-- C3 witness: three chunks scoring 1, 1 and 0 against the query; with
minSimilarity 3/10 and limit 1 the second above-threshold candidate is
excluded only because the single slot is taken by an equal score, and the
conclusion holds at this input. -/
theorem search_threshold_before_truncation_witness :
    (∀ r ∈ searchWithJavaScript
        [⟨"c0", "s1", none, none, none, 0, 3, "t0", none, [1, 0]⟩,
         ⟨"c1", "s1", none, none, none, 1, 3, "t1", none, [1, 0]⟩,
         ⟨"c2", "s1", none, none, none, 2, 3, "t2", none, [0, 1]⟩]
        [1, 0] 1 ⟨none, none, none⟩ (3 / 10), (3 : ℚ) / 10 ≤ r.score) ∧
    (searchWithJavaScript
        [⟨"c0", "s1", none, none, none, 0, 3, "t0", none, [1, 0]⟩,
         ⟨"c1", "s1", none, none, none, 1, 3, "t1", none, [1, 0]⟩,
         ⟨"c2", "s1", none, none, none, 2, 3, "t2", none, [0, 1]⟩]
        [1, 0] 1 ⟨none, none, none⟩ (3 / 10)).Pairwise scoreDesc ∧
    (searchWithJavaScript
        [⟨"c0", "s1", none, none, none, 0, 3, "t0", none, [1, 0]⟩,
         ⟨"c1", "s1", none, none, none, 1, 3, "t1", none, [1, 0]⟩,
         ⟨"c2", "s1", none, none, none, 2, 3, "t2", none, [0, 1]⟩]
        [1, 0] 1 ⟨none, none, none⟩ (3 / 10)).length ≤ 1 ∧
    (∀ r, r ∈ searchCandidates
        [⟨"c0", "s1", none, none, none, 0, 3, "t0", none, [1, 0]⟩,
         ⟨"c1", "s1", none, none, none, 1, 3, "t1", none, [1, 0]⟩,
         ⟨"c2", "s1", none, none, none, 2, 3, "t2", none, [0, 1]⟩]
        [1, 0] ⟨none, none, none⟩ →
      (3 : ℚ) / 10 ≤ r.score →
      r ∉ searchWithJavaScript
        [⟨"c0", "s1", none, none, none, 0, 3, "t0", none, [1, 0]⟩,
         ⟨"c1", "s1", none, none, none, 1, 3, "t1", none, [1, 0]⟩,
         ⟨"c2", "s1", none, none, none, 2, 3, "t2", none, [0, 1]⟩]
        [1, 0] 1 ⟨none, none, none⟩ (3 / 10) →
      (searchWithJavaScript
          [⟨"c0", "s1", none, none, none, 0, 3, "t0", none, [1, 0]⟩,
           ⟨"c1", "s1", none, none, none, 1, 3, "t1", none, [1, 0]⟩,
           ⟨"c2", "s1", none, none, none, 2, 3, "t2", none, [0, 1]⟩]
          [1, 0] 1 ⟨none, none, none⟩ (3 / 10)).length = 1 ∧
        ∀ x ∈ searchWithJavaScript
          [⟨"c0", "s1", none, none, none, 0, 3, "t0", none, [1, 0]⟩,
           ⟨"c1", "s1", none, none, none, 1, 3, "t1", none, [1, 0]⟩,
           ⟨"c2", "s1", none, none, none, 2, 3, "t2", none, [0, 1]⟩]
          [1, 0] 1 ⟨none, none, none⟩ (3 / 10), r.score ≤ x.score) :=
  search_threshold_before_truncation
    [⟨"c0", "s1", none, none, none, 0, 3, "t0", none, [1, 0]⟩,
     ⟨"c1", "s1", none, none, none, 1, 3, "t1", none, [1, 0]⟩,
     ⟨"c2", "s1", none, none, none, 2, 3, "t2", none, [0, 1]⟩]
    [1, 0] 1 ⟨none, none, none⟩ (3 / 10)

/-- C10: the vector-store search is total in the presence of stored vectors
of the wrong dimensionality. A chunk whose embedding length differs from
the query embedding gets similarity 0 rather than raising, and with any
positive minimum similarity it is silently excluded from the results. -/
theorem search_dimension_mismatch_silently_excluded (chunks : List SessionChunk)
    (queryEmbedding : List ℚ) (limit : Nat) (filter : SearchFilter)
    (minSimilarity : ℚ) (c : SessionChunk)
    (_hc : c ∈ chunks) (hdim : queryEmbedding.length ≠ c.embedding.length)
    (hpos : 0 < minSimilarity)
    (huniq : ∀ c2 ∈ chunks, c2.id = c.id → c2 = c) :
    dotProductSimilarity queryEmbedding c.embedding = 0 ∧
    ∀ r ∈ searchWithJavaScript chunks queryEmbedding limit filter minSimilarity,
      r.id ≠ c.id := by
  have hdot : dotProductSimilarity queryEmbedding c.embedding = 0 := by
    rw [dotProductSimilarity, if_pos hdim]
  refine ⟨hdot, ?_⟩
  intro r hr hid
  obtain ⟨hcand, hscore⟩ := mem_searchWithJavaScript chunks queryEmbedding limit
    filter minSimilarity r hr
  rcases List.mem_map.mp hcand with ⟨c2, hc2f, hre⟩
  have hc2 : c2 ∈ chunks :=
    therapistFiltered_subset filter chunks
      (applyFilter_subset_therapistFiltered filter chunks hc2f)
  have hc2id : c2.id = c.id := by rw [← hre] at hid; exact hid
  have hc2c : c2 = c := huniq c2 hc2 hc2id
  rw [← hre] at hscore
  have : (chunkToResult queryEmbedding c2).score = 0 := by
    rw [chunkToResult]
    rw [hc2c, hdot]
  rw [this] at hscore
  linarith

/-- C10 witness: a single stored chunk with a 3-dimensional embedding
searched with a 2-dimensional query and positive threshold; its similarity
is 0 and it never appears in the results. -/
theorem search_dimension_mismatch_silently_excluded_witness :
    dotProductSimilarity [1, 0]
        (⟨"c0", "s1", none, none, none, 0, 1, "t0", none, [1, 0, 0]⟩ :
          SessionChunk).embedding = 0 ∧
    ∀ r ∈ searchWithJavaScript
        [⟨"c0", "s1", none, none, none, 0, 1, "t0", none, [1, 0, 0]⟩]
        [1, 0] 10 ⟨none, none, none⟩ (3 / 10),
      r.id ≠ "c0" :=
  search_dimension_mismatch_silently_excluded
    [⟨"c0", "s1", none, none, none, 0, 1, "t0", none, [1, 0, 0]⟩]
    [1, 0] 10 ⟨none, none, none⟩ (3 / 10)
    ⟨"c0", "s1", none, none, none, 0, 1, "t0", none, [1, 0, 0]⟩
    (List.mem_singleton_self _) (by decide) (by norm_num)
    (by intro c2 h2 _; cases List.mem_singleton.mp h2; rfl)

end Therapy

namespace Therapy

theorem chunkText_empty (env : ChunkerEnv)
    (hsplit : env.splitIntoSentences [] = [[]]) : chunkText env [] = [] := by
  have hdet : detectSpeakerTurns [] = false := by decide
  rw [chunkText, hdet]
  simp only [Bool.false_eq_true, if_false]
  rw [chunkBySentences, hsplit]
  rw [sentencesGo]
  have hcond : ¬(maxChunkSize < 0 + env.countTokens [] ∧ ([] : List Str) ≠ []) := by
    rintro ⟨_, h⟩; exact h rfl
  rw [if_neg hcond, sentencesGo]
  have : (([] : List Str) ++ [[]]) ≠ [] := by decide
  rw [if_pos this]
  decide

/-- C5: the chunker never consults the structured sessionEntries. A call of
the indexing pipeline with empty text and nonempty sessionEntries — exactly
the call SessionsService.updateSessionEmbedding makes — produces zero
chunks and the pipeline fails with the chunking error, instead of chunking
the entries with speaker attribution as the specification (and the source
code comments) state; moreover the chunk texts produced for any input are
entirely independent of the metadata, sessionEntries included. -/
theorem chunker_ignores_structured_entries (env : ChunkerEnv)
    (metadata : IndexMetadata) (entries : List SessionEntry) (sid : String)
    (hsplit : env.splitIntoSentences [] = [[]])
    (hentries : metadata.sessionEntries = some entries) (hne : entries ≠ [])
    (hsid : metadata.sessionId = some sid) (hsidne : sid ≠ "") :
    SemanticChunker.process env [] metadata = [] ∧
    indexDocumentChunks env [] metadata
      = .error "Document chunking produced no results" ∧
    ∀ (text : Str) (m1 m2 : IndexMetadata),
      (SemanticChunker.process env text m1).map (fun c => c.text)
        = (SemanticChunker.process env text m2).map (fun c => c.text) := by
  have hct := chunkText_empty env hsplit
  have hproc : SemanticChunker.process env [] metadata = [] := by
    rw [SemanticChunker.process, hct]
    rfl
  refine ⟨hproc, ?_, ?_⟩
  · rw [indexDocumentChunks]
    have h1 : (strTrim [] != ([] : Str)) = false := by decide
    have h2 : (match metadata.sessionEntries with
        | some entries => entries != []
        | none => false) = true := by
      rw [hentries]
      exact bne_iff_ne.mpr hne
    rw [h1, h2]
    simp only [Bool.not_false, Bool.not_true, Bool.and_false, Bool.false_eq_true,
      if_false]
    have h3 : optStringTruthy metadata.sessionId = true := by
      rw [hsid, optStringTruthy]
      exact decide_eq_true hsidne
    rw [h3]
    simp only [Bool.not_true, Bool.false_eq_true, if_false]
    rw [hproc]
    rfl
  · intro text m1 m2
    simp [SemanticChunker.process, List.map_map, Function.comp]

/-- C5 witness: a concrete chunker environment and the exact metadata shape
SessionsService sends (empty text, one structured entry). -/
theorem chunker_ignores_structured_entries_witness :
    SemanticChunker.process ⟨fun s => s.length / 4, fun s => [s]⟩ []
        ⟨some "s1", none, none, none, some [⟨"therapist", "Hello"⟩]⟩ = [] ∧
    indexDocumentChunks ⟨fun s => s.length / 4, fun s => [s]⟩ []
        ⟨some "s1", none, none, none, some [⟨"therapist", "Hello"⟩]⟩
      = .error "Document chunking produced no results" ∧
    ∀ (text : Str) (m1 m2 : IndexMetadata),
      (SemanticChunker.process ⟨fun s => s.length / 4, fun s => [s]⟩ text m1).map
          (fun c => c.text)
        = (SemanticChunker.process ⟨fun s => s.length / 4, fun s => [s]⟩ text m2).map
          (fun c => c.text) :=
  chunker_ignores_structured_entries ⟨fun s => s.length / 4, fun s => [s]⟩
    ⟨some "s1", none, none, none, some [⟨"therapist", "Hello"⟩]⟩
    [⟨"therapist", "Hello"⟩] "s1" rfl rfl (by decide) rfl (by decide)

/-- C9: the embedding retry policy. A non-retriable failure on the first
attempt is surfaced immediately with no backoff sleeps, while two retriable
failures followed by a success return the successful embeddings with the
exponentially doubling backoff delays 1000 ms then 2000 ms, and the caller
observes no error. -/
theorem embed_retry_policy :
    (∀ (attempt : Nat → Except ApiError (List (List ℚ))) (dims : Nat)
        (embeddings : List (List ℚ)) (e0 e1 : ApiError),
      attempt 0 = .error e0 → isRetriableError e0 = true →
      attempt 1 = .error e1 → isRetriableError e1 = true →
      attempt 2 = .ok embeddings → validateEmbeddings dims embeddings = .ok () →
      embedWithRetry attempt dims 0 = (.ok embeddings, [1000, 2000])) ∧
    (∀ (attempt : Nat → Except ApiError (List (List ℚ))) (dims : Nat)
        (e : ApiError),
      attempt 0 = .error e → isRetriableError e = false →
      embedWithRetry attempt dims 0
        = (.error ("Embedding failed: " ++ e.message), [])) := by
  constructor
  · intro attempt dims embeddings e0 e1 h0 hr0 h1 hr1 h2 hv
    rw [embedWithRetry]
    show embedRetryLoop attempt dims 0 3 = _
    simp only [embedRetryLoop, h0, h1, h2, hr0, hr1, hv, if_true]
    norm_num [initialRetryDelay]
  · intro attempt dims e h0 hr
    rw [embedWithRetry]
    show embedRetryLoop attempt dims 0 3 = _
    simp only [embedRetryLoop, h0, hr]
    simp

/-- C9 witness: a provider that fails with HTTP 429 on the first two
attempts and succeeds on the third; and one that fails with a plain
(status-free) error. -/
theorem embed_retry_policy_witness :
    embedWithRetry
        (fun n => if n = 2 then .ok [[1]] else .error ⟨some 429, none, "rate"⟩) 1 0
      = (.ok [[1]], [1000, 2000]) ∧
    embedWithRetry (fun _ => .error ⟨none, none, "bad request"⟩) 1 0
      = (.error ("Embedding failed: " ++ "bad request"), []) :=
  ⟨embed_retry_policy.1
      (fun n => if n = 2 then .ok [[1]] else .error ⟨some 429, none, "rate"⟩)
      1 [[1]] ⟨some 429, none, "rate"⟩ ⟨some 429, none, "rate"⟩
      rfl (by decide) rfl (by decide) rfl (by decide),
    embed_retry_policy.2 (fun _ => .error ⟨none, none, "bad request"⟩) 1
      ⟨none, none, "bad request"⟩ rfl (by decide)⟩

end Therapy

namespace Therapy

theorem mmrScore_lambda_one (sim : SearchResult → List SearchResult → ℚ)
    (selected : List SearchResult) :
    mmrScore 1 sim selected = fun doc => doc.score := by
  funext doc
  rw [mmrScore]
  ring

theorem bestIndexGo_lt (f : SearchResult → ℚ) :
    ∀ (rest : List SearchResult) (i bi : Nat) (bs : ℚ), bi < i →
      bestIndexGo f rest i bi bs < i + rest.length := by
  intro rest
  induction rest with
  | nil => intro i bi bs h; simpa [bestIndexGo] using h
  | cons d t ih =>
      intro i bi bs h
      rw [bestIndexGo]
      simp only [List.length_cons]
      split
      · have := ih (i + 1) i (f d) (Nat.lt_succ_self i)
        omega
      · have := ih (i + 1) bi bs (Nat.lt_succ_of_lt h)
        omega

theorem bestIndex_lt (f : SearchResult → ℚ) (l : List SearchResult)
    (h : l ≠ []) : bestIndex f l < l.length := by
  cases l with
  | nil => exact absurd rfl h
  | cons d rest =>
      rw [bestIndex]
      have := bestIndexGo_lt f rest 1 0 (f d) Nat.one_pos
      simp only [List.length_cons]
      omega

theorem bestIndexGo_of_max (f : SearchResult → ℚ) :
    ∀ (rest : List SearchResult) (i bi : Nat) (bs : ℚ),
      (∀ d ∈ rest, f d ≤ bs) → bestIndexGo f rest i bi bs = bi := by
  intro rest
  induction rest with
  | nil => intro i bi bs _; rfl
  | cons d t ih =>
      intro i bi bs h
      rw [bestIndexGo]
      rw [if_neg (not_lt.mpr (h d (List.mem_cons_self d t)))]
      exact ih (i + 1) bi bs (fun x hx => h x (List.mem_cons_of_mem d hx))

theorem bestIndex_sorted_head (f : SearchResult → ℚ) (d : SearchResult)
    (rest : List SearchResult) (h : ∀ x ∈ rest, f x ≤ f d) :
    bestIndex f (d :: rest) = 0 := by
  rw [bestIndex]
  exact bestIndexGo_of_max f rest 1 0 (f d) h

theorem rerankGo_lambda_one_sorted (sim : SearchResult → List SearchResult → ℚ)
    (topK : Nat) :
    ∀ (fuel : Nat) (selected remaining : List SearchResult),
      remaining.length ≤ fuel → remaining.Pairwise scoreDesc →
      rerankGo sim 1 topK fuel selected remaining
        = selected ++ remaining.take (topK - selected.length) := by
  intro fuel
  induction fuel with
  | zero =>
      intro selected remaining hlen _
      have : remaining = [] := List.eq_nil_of_length_eq_zero (Nat.le_zero.mp hlen)
      subst this
      simp [rerankGo]
  | succ fuel ih =>
      intro selected remaining hlen hsorted
      rw [rerankGo]
      by_cases hcond : selected.length < topK ∧ remaining ≠ []
      · rw [if_pos hcond]
        obtain ⟨hlt, hne⟩ := hcond
        cases remaining with
        | nil => exact absurd rfl hne
        | cons r rest =>
            have hbest : bestIndex (mmrScore 1 sim selected) (r :: rest) = 0 := by
              rw [mmrScore_lambda_one]
              refine bestIndex_sorted_head _ r rest (fun x hx => ?_)
              exact (List.pairwise_cons.mp hsorted).1 x hx
            dsimp only
            rw [hbest]
            have hgetD : (r :: rest).getD 0 dummyResult = r := rfl
            have herase : (r :: rest).eraseIdx 0 = rest := rfl
            rw [hgetD, herase]
            have hlen2 : rest.length ≤ fuel := by
              simp only [List.length_cons] at hlen
              omega
            rw [ih (selected ++ [r]) rest hlen2 (List.pairwise_cons.mp hsorted).2]
            have hm : topK - selected.length = (topK - (selected.length + 1)) + 1 := by
              omega
            rw [List.append_assoc, List.singleton_append, hm, List.take_succ_cons]
            simp
      · rw [if_neg hcond]
        rcases Decidable.not_and_iff_or_not.mp hcond with h | h
        · have hz : topK - selected.length = 0 := by omega
          rw [hz]
          simp
        · have : remaining = [] := not_not.mp h
          subst this
          simp

/-- C7 counterexample: on a candidate list that is not sorted by relevance,
MMR with lambda one seeds the first list element regardless of its score,
so with topK one it returns the lower-scoring item while truncating the
relevance-sorted input returns the higher-scoring one — the claim fails as
stated for an arbitrary candidate list. -/
theorem mmr_lambda_one_unsorted_counterexample :
    rerankWithMMR (fun _ _ => 0)
        [⟨"a", 0, "", [], ⟨"", "", "", "", 0, 0, none⟩⟩,
         ⟨"b", 1, "", [], ⟨"", "", "", "", 0, 0, none⟩⟩] 1 1
      = [⟨"a", 0, "", [], ⟨"", "", "", "", 0, 0, none⟩⟩] ∧
    specRelevanceTruncate
        [⟨"a", 0, "", [], ⟨"", "", "", "", 0, 0, none⟩⟩,
         ⟨"b", 1, "", [], ⟨"", "", "", "", 0, 0, none⟩⟩] 1
      = [⟨"b", 1, "", [], ⟨"", "", "", "", 0, 0, none⟩⟩] ∧
    (⟨"a", 0, "", [], ⟨"", "", "", "", 0, 0, none⟩⟩ : SearchResult)
      ≠ ⟨"b", 1, "", [], ⟨"", "", "", "", 0, 0, none⟩⟩ := by
  refine ⟨rfl, ?_, by decide⟩
  rw [specRelevanceTruncate]
  rw [show List.insertionSort scoreDesc
      [⟨"a", 0, "", [], ⟨"", "", "", "", 0, 0, none⟩⟩,
       ⟨"b", 1, "", [], ⟨"", "", "", "", 0, 0, none⟩⟩]
    = List.orderedInsert scoreDesc ⟨"a", 0, "", [], ⟨"", "", "", "", 0, 0, none⟩⟩
        [⟨"b", 1, "", [], ⟨"", "", "", "", 0, 0, none⟩⟩] from rfl]
  rw [List.orderedInsert]
  rw [if_neg (by rw [scoreDesc]; norm_num)]
  rfl

/-- C7 amended: for a candidate list already sorted by descending relevance
score and any topK of at least one, MMR with lambda one returns exactly the
first topK candidates — identical to truncating the relevance-sorted input,
with no diversity effect, for every similarity function. -/
theorem mmr_lambda_one_reduces_to_relevance
    (sim : SearchResult → List SearchResult → ℚ) (results : List SearchResult)
    (topK : Nat) (hsorted : results.Pairwise scoreDesc) (htop : 1 ≤ topK) :
    rerankWithMMR sim results 1 topK = results.take topK ∧
    rerankWithMMR sim results 1 topK = specRelevanceTruncate results topK := by
  have h1 : rerankWithMMR sim results 1 topK = results.take topK := by
    cases results with
    | nil => simp [rerankWithMMR]
    | cons first rest =>
        rw [rerankWithMMR]
        rw [rerankGo_lambda_one_sorted sim topK rest.length [first] rest
          (le_refl _) (List.pairwise_cons.mp hsorted).2]
        have hm : topK = (topK - 1) + 1 := by omega
        rw [hm, List.take_succ_cons]
        simp
  refine ⟨h1, ?_⟩
  rw [specRelevanceTruncate, List.Sorted.insertionSort_eq hsorted]
  exact h1

theorem pairwise_scoreDesc_pair :
    ([⟨"b", 1, "", [], ⟨"", "", "", "", 0, 0, none⟩⟩,
      ⟨"a", 0, "", [], ⟨"", "", "", "", 0, 0, none⟩⟩] :
        List SearchResult).Pairwise scoreDesc := by
  rw [List.pairwise_cons]
  refine ⟨fun x hx => ?_, List.pairwise_singleton _ _⟩
  rw [List.mem_singleton.mp hx, scoreDesc]
  norm_num

/-- C7 witness: a two-element list sorted by descending score with topK one;
MMR with lambda one returns exactly the top relevance item. -/
theorem mmr_lambda_one_reduces_to_relevance_witness :
    (([⟨"b", 1, "", [], ⟨"", "", "", "", 0, 0, none⟩⟩,
       ⟨"a", 0, "", [], ⟨"", "", "", "", 0, 0, none⟩⟩] :
        List SearchResult).Pairwise scoreDesc ∧ 1 ≤ 1) ∧
    (rerankWithMMR (fun _ _ => 0)
        [⟨"b", 1, "", [], ⟨"", "", "", "", 0, 0, none⟩⟩,
         ⟨"a", 0, "", [], ⟨"", "", "", "", 0, 0, none⟩⟩] 1 1
      = ([⟨"b", 1, "", [], ⟨"", "", "", "", 0, 0, none⟩⟩,
          ⟨"a", 0, "", [], ⟨"", "", "", "", 0, 0, none⟩⟩] :
          List SearchResult).take 1 ∧
    rerankWithMMR (fun _ _ => 0)
        [⟨"b", 1, "", [], ⟨"", "", "", "", 0, 0, none⟩⟩,
         ⟨"a", 0, "", [], ⟨"", "", "", "", 0, 0, none⟩⟩] 1 1
      = specRelevanceTruncate
          [⟨"b", 1, "", [], ⟨"", "", "", "", 0, 0, none⟩⟩,
           ⟨"a", 0, "", [], ⟨"", "", "", "", 0, 0, none⟩⟩] 1) :=
  ⟨⟨pairwise_scoreDesc_pair, le_refl 1⟩,
    mmr_lambda_one_reduces_to_relevance (fun _ _ => 0) _ 1
      pairwise_scoreDesc_pair (le_refl 1)⟩

end Therapy

namespace Therapy

theorem perm_getD_cons_eraseIdx :
    ∀ (l : List SearchResult) (i : Nat), i < l.length →
      l.Perm (l.getD i dummyResult :: l.eraseIdx i) := by
  intro l
  induction l with
  | nil => intro i h; cases h
  | cons a t ih =>
      intro i h
      cases i with
      | zero => exact List.Perm.refl _
      | succ i =>
          have hi : i < t.length := by
            simp only [List.length_cons] at h
            omega
          have hp := ih i hi
          show (a :: t).Perm (t.getD i dummyResult :: a :: t.eraseIdx i)
          exact (hp.cons a).trans (List.Perm.swap _ _ _)

theorem rerankGo_split (sim : SearchResult → List SearchResult → ℚ)
    (lambda : ℚ) (topK : Nat) :
    ∀ (fuel : Nat) (selected remaining : List SearchResult),
      ∃ extra, rerankGo sim lambda topK fuel selected remaining
          = selected ++ extra ∧
        (↑extra : Multiset SearchResult) ≤ ↑remaining := by
  intro fuel
  induction fuel with
  | zero =>
      intro selected remaining
      exact ⟨[], by simp [rerankGo], by simp⟩
  | succ fuel ih =>
      intro selected remaining
      rw [rerankGo]
      by_cases hcond : selected.length < topK ∧ remaining ≠ []
      · rw [if_pos hcond]
        dsimp only
        obtain ⟨extra, heq, hle⟩ := ih
          (selected ++ [remaining.getD
            (bestIndex (mmrScore lambda sim selected) remaining) dummyResult])
          (remaining.eraseIdx (bestIndex (mmrScore lambda sim selected) remaining))
        refine ⟨remaining.getD (bestIndex (mmrScore lambda sim selected) remaining)
          dummyResult :: extra, ?_, ?_⟩
        · rw [heq, List.append_assoc, List.singleton_append]
        · have hperm := perm_getD_cons_eraseIdx remaining
            (bestIndex (mmrScore lambda sim selected) remaining)
            (bestIndex_lt _ remaining hcond.2)
          have hcoe : (↑remaining : Multiset SearchResult)
              = ↑(remaining.getD (bestIndex (mmrScore lambda sim selected) remaining)
                  dummyResult :: remaining.eraseIdx
                    (bestIndex (mmrScore lambda sim selected) remaining)) :=
            Multiset.coe_eq_coe.mpr hperm
          rw [hcoe]
          exact Multiset.cons_le_cons _ hle
      · rw [if_neg hcond]
        exact ⟨[], by simp, by simp⟩

theorem rerankGo_length (sim : SearchResult → List SearchResult → ℚ)
    (lambda : ℚ) (topK : Nat) :
    ∀ (fuel : Nat) (selected remaining : List SearchResult),
      (rerankGo sim lambda topK fuel selected remaining).length
        ≤ max topK selected.length := by
  intro fuel
  induction fuel with
  | zero => intro selected remaining; exact Nat.le_max_right _ _
  | succ fuel ih =>
      intro selected remaining
      rw [rerankGo]
      by_cases hcond : selected.length < topK ∧ remaining ≠ []
      · rw [if_pos hcond]
        dsimp only
        have := ih (selected ++ [remaining.getD
            (bestIndex (mmrScore lambda sim selected) remaining) dummyResult])
          (remaining.eraseIdx (bestIndex (mmrScore lambda sim selected) remaining))
        simp only [List.length_append, List.length_singleton] at this
        have hmax : max topK (selected.length + 1) = topK :=
          Nat.max_eq_left hcond.1
        rw [hmax] at this
        exact le_trans this (Nat.le_max_left _ _)
      · rw [if_neg hcond]
        exact Nat.le_max_right _ _

/-- C8 counterexample: with topK zero and a nonempty candidate list, MMR
still returns the seeded first candidate, so the returned length exceeds
topK — the claim fails as stated for topK equal to zero. -/
theorem mmr_topk_zero_counterexample :
    ¬ ((rerankWithMMR (fun _ _ => 0)
        [⟨"a", 1, "", [], ⟨"", "", "", "", 0, 0, none⟩⟩] (1 / 2) 0).length ≤ 0) := by
  intro h
  rw [show rerankWithMMR (fun _ _ => 0)
      [⟨"a", 1, "", [], ⟨"", "", "", "", 0, 0, none⟩⟩] (1 / 2) 0
    = [⟨"a", 1, "", [], ⟨"", "", "", "", 0, 0, none⟩⟩] from rfl] at h
  exact absurd h (by decide)

/-- C8 amended: for every candidate list, lambda, similarity function and
topK, the MMR selection is a sub-multiset of the candidates (so a candidate
never appears more often than in the input, and distinct candidates are
never repeated) and its length is at most max topK 1: at most topK whenever
topK is at least one, with the single seeded candidate escaping the bound
only in the degenerate case topK equal to zero on nonempty input. -/
theorem mmr_no_duplicates_bounded (sim : SearchResult → List SearchResult → ℚ)
    (results : List SearchResult) (lambda : ℚ) (topK : Nat) :
    (↑(rerankWithMMR sim results lambda topK) : Multiset SearchResult)
        ≤ ↑results ∧
    (rerankWithMMR sim results lambda topK).length ≤ max topK 1 ∧
    (results.Nodup → (rerankWithMMR sim results lambda topK).Nodup) := by
  have hsub : (↑(rerankWithMMR sim results lambda topK) : Multiset SearchResult)
      ≤ ↑results := by
    cases results with
    | nil => simp [rerankWithMMR]
    | cons first rest =>
        rw [rerankWithMMR]
        obtain ⟨extra, heq, hle⟩ := rerankGo_split sim lambda topK rest.length
          [first] rest
        rw [heq, List.singleton_append]
        rw [show ((↑(first :: extra) : Multiset SearchResult)) = first ::ₘ ↑extra
          from rfl]
        rw [show ((↑(first :: rest) : Multiset SearchResult)) = first ::ₘ ↑rest
          from rfl]
        exact Multiset.cons_le_cons _ hle
  refine ⟨hsub, ?_, ?_⟩
  · cases results with
    | nil => simp [rerankWithMMR]
    | cons first rest =>
        rw [rerankWithMMR]
        have := rerankGo_length sim lambda topK rest.length [first] rest
        simpa using this
  · intro hnd
    have : (↑results : Multiset SearchResult).Nodup := Multiset.coe_nodup.mpr hnd
    exact Multiset.coe_nodup.mp (Multiset.nodup_of_le hsub this)

/-- C8 witness: one candidate, topK five; the selection is a sub-multiset of
the input, within the bound, and duplicate-free. -/
theorem mmr_no_duplicates_bounded_witness :
    (↑(rerankWithMMR (fun _ _ => 0)
        [⟨"a", 1, "", [], ⟨"", "", "", "", 0, 0, none⟩⟩] (1 / 2) 5)
        : Multiset SearchResult)
      ≤ ↑([⟨"a", 1, "", [], ⟨"", "", "", "", 0, 0, none⟩⟩] : List SearchResult) ∧
    (rerankWithMMR (fun _ _ => 0)
        [⟨"a", 1, "", [], ⟨"", "", "", "", 0, 0, none⟩⟩] (1 / 2) 5).length
      ≤ max 5 1 ∧
    ([⟨"a", 1, "", [], ⟨"", "", "", "", 0, 0, none⟩⟩] :
        List SearchResult).Nodup ∧
    (rerankWithMMR (fun _ _ => 0)
        [⟨"a", 1, "", [], ⟨"", "", "", "", 0, 0, none⟩⟩] (1 / 2) 5).Nodup := by
  have h := mmr_no_duplicates_bounded (fun _ _ => 0)
    [⟨"a", 1, "", [], ⟨"", "", "", "", 0, 0, none⟩⟩] (1 / 2) 5
  exact ⟨h.1, h.2.1, by decide, h.2.2 (by decide)⟩

end Therapy

namespace Therapy

theorem mget_nil (id : String) : mget [] id = none := rfl

theorem mget_cons (p : String × ℚ) (m : List (String × ℚ)) (id : String) :
    mget (p :: m) id = if p.1 = id then some p.2 else mget m id := by
  by_cases h : p.1 = id
  · simp [mget, List.find?, h]
  · simp [mget, List.find?, h]

theorem mget_map_set_ne (t : List (String × ℚ)) (id id2 : String) (v : ℚ)
    (h : id2 ≠ id) :
    mget (t.map (fun p => if p.1 = id then (id, v) else p)) id2 = mget t id2 := by
  induction t with
  | nil => rfl
  | cons q t ih =>
      rw [List.map_cons, mget_cons, mget_cons]
      by_cases hq : q.1 = id
      · rw [if_pos hq]
        have h1 : (id, v).1 ≠ id2 := fun he => h (he.symm)
        rw [if_neg h1]
        have h2 : ¬ q.1 = id2 := by rw [hq]; exact fun he => h he.symm
        rw [if_neg h2]
        exact ih
      · rw [if_neg hq]
        by_cases h2 : q.1 = id2
        · rw [if_pos h2, if_pos h2]
        · rw [if_neg h2, if_neg h2]
          exact ih

theorem mget_map_set_self (t : List (String × ℚ)) (id : String) (v : ℚ)
    (hany : t.any (fun p => p.1 = id) = true) :
    mget (t.map (fun p => if p.1 = id then (id, v) else p)) id = some v := by
  induction t with
  | nil => cases hany
  | cons q t ih =>
      rw [List.map_cons, mget_cons]
      by_cases hq : q.1 = id
      · rw [if_pos hq]
        simp
      · rw [if_neg hq]
        rw [if_neg hq]
        refine ih ?_
        rcases List.any_eq_true.mp hany with ⟨p, hp, hpe⟩
        rcases List.mem_cons.mp hp with he | ht
        · exact absurd (of_decide_eq_true (he ▸ hpe)) hq
        · exact List.any_eq_true.mpr ⟨p, ht, hpe⟩

theorem mget_append_single (m : List (String × ℚ)) (id id2 : String) (v : ℚ)
    (hnone : mget m id2 = none) :
    mget (m ++ [(id, v)]) id2 = if id = id2 then some v else none := by
  induction m with
  | nil =>
      rw [List.nil_append, mget_cons, mget_nil]
  | cons q t ih =>
      rw [mget_cons] at hnone
      rw [List.cons_append, mget_cons]
      by_cases hq : q.1 = id2
      · rw [if_pos hq] at hnone; cases hnone
      · rw [if_neg hq] at hnone
        rw [if_neg hq]
        exact ih hnone

theorem mget_append_of_some (m : List (String × ℚ)) (id2 : String)
    (rest : List (String × ℚ)) (v : ℚ) (hsome : mget m id2 = some v) :
    mget (m ++ rest) id2 = some v := by
  induction m with
  | nil => cases hsome
  | cons q t ih =>
      rw [mget_cons] at hsome
      rw [List.cons_append, mget_cons]
      by_cases hq : q.1 = id2
      · rw [if_pos hq] at hsome; rw [if_pos hq]; exact hsome
      · rw [if_neg hq] at hsome; rw [if_neg hq]; exact ih hsome

theorem mget_any_of_isSome (m : List (String × ℚ)) (id : String) (v : ℚ)
    (h : mget m id = some v) : m.any (fun p => p.1 = id) = true := by
  induction m with
  | nil => cases h
  | cons q t ih =>
      rw [mget_cons] at h
      rw [List.any_cons]
      by_cases hq : q.1 = id
      · rw [decide_eq_true hq]; rfl
      · rw [if_neg hq] at h
        rw [ih h, Bool.or_true]

theorem mget_none_not_any (m : List (String × ℚ)) (id : String)
    (h : mget m id = none) : m.any (fun p => p.1 = id) = false := by
  rw [mget] at h
  have hf : m.find? (fun p => p.1 = id) = none := Option.map_eq_none'.mp h
  rw [List.any_eq_false]
  intro x hx
  exact List.find?_eq_none.mp hf x hx

theorem mget_mset (m : List (String × ℚ)) (id id2 : String) (v : ℚ) :
    mget (mset m id v) id2 = if id2 = id then some v else mget m id2 := by
  rw [mset]
  by_cases hany : m.any (fun p => p.1 = id) = true
  · rw [if_pos hany]
    by_cases h : id2 = id
    · subst h
      rw [if_pos rfl]
      exact mget_map_set_self m id2 v hany
    · rw [if_neg h]
      exact mget_map_set_ne m id id2 v h
  · rw [if_neg hany]
    by_cases h : id2 = id
    · subst h
      rw [if_pos rfl]
      have hnone : mget m id2 = none := by
        cases hv : mget m id2 with
        | none => rfl
        | some w => exact absurd (mget_any_of_isSome m id2 w hv) hany
      rw [mget_append_single m id2 id2 v hnone, if_pos rfl]
    · rw [if_neg h]
      cases hv : mget m id2 with
      | some w => exact mget_append_of_some m id2 [(id, v)] w hv
      | none =>
          rw [mget_append_single m id id2 v hv]
          rw [if_neg (fun he => h he.symm)]

end Therapy

namespace Therapy

theorem rankOf_cons_self (id : String) (xs : List String) :
    rankOf id (id :: xs) = 0 := by
  rw [rankOf, if_pos rfl]

theorem rankOf_cons_ne (x id : String) (xs : List String) (h : x ≠ id) :
    rankOf id (x :: xs) = rankOf id xs + 1 := by
  rw [rankOf, if_neg h]

theorem mset_keys (m : List (String × ℚ)) (id : String) (v : ℚ) :
    (mset m id v).map Prod.fst
      = if m.any (fun p => p.1 = id) = true then m.map Prod.fst
        else m.map Prod.fst ++ [id] := by
  rw [mset]
  split
  · rw [List.map_map]
    apply List.map_congr_left
    intro p _
    by_cases hp : p.1 = id <;> simp [hp]
  · simp

theorem not_any_keys (m : List (String × ℚ)) (id : String)
    (h : ¬ m.any (fun p => p.1 = id) = true) : id ∉ m.map Prod.fst := by
  intro hmem
  rcases List.mem_map.mp hmem with ⟨p, hp, he⟩
  exact h (List.any_eq_true.mpr ⟨p, hp, decide_eq_true he⟩)

theorem mset_keys_nodup (m : List (String × ℚ)) (id : String) (v : ℚ)
    (h : (m.map Prod.fst).Nodup) : ((mset m id v).map Prod.fst).Nodup := by
  rw [mset_keys]
  split
  · exact h
  · next hany => simp [List.nodup_append, h, not_any_keys m id hany]

theorem rrfAdd_keys_nodup (w k : ℚ) :
    ∀ (ids : List String) (rank : Nat) (m : List (String × ℚ)),
      (m.map Prod.fst).Nodup → ((rrfAdd w k rank ids m).map Prod.fst).Nodup := by
  intro ids
  induction ids with
  | nil => intro rank m h; exact h
  | cons x ids ih =>
      intro rank m h
      rw [rrfAdd]
      exact ih (rank + 1) _ (mset_keys_nodup m x _ h)

theorem mget_some_mem (m : List (String × ℚ)) (id : String) (v : ℚ)
    (h : mget m id = some v) : (id, v) ∈ m := by
  rw [mget] at h
  rcases Option.map_eq_some'.mp h with ⟨p, hfind, hsnd⟩
  have hmem := List.mem_of_find?_eq_some hfind
  have hps := List.find?_some hfind
  have hfst : p.1 = id := of_decide_eq_true hps
  obtain ⟨pf, ps⟩ := p
  dsimp only at hfst hsnd
  subst hfst
  subst hsnd
  exact hmem

theorem rrfAdd_mget (w k : ℚ) :
    ∀ (ids : List String) (rank : Nat) (m : List (String × ℚ)) (id : String),
      ids.Nodup →
      mget (rrfAdd w k rank ids m) id
        = if id ∈ ids then
            some ((mget m id).getD 0
              + w / (k + ((rank : ℚ) + (rankOf id ids : ℚ)) + 1))
          else mget m id := by
  intro ids
  induction ids with
  | nil => intro rank m id _; simp [rrfAdd]
  | cons x ids ih =>
      intro rank m id hnd
      have hnd2 := List.nodup_cons.mp hnd
      rw [rrfAdd]
      by_cases hix : id = x
      · subst hix
        rw [ih (rank + 1) _ id hnd2.2]
        rw [if_neg hnd2.1]
        rw [mget_mset m id id _, if_pos rfl]
        rw [if_pos (List.mem_cons_self id ids)]
        rw [rankOf_cons_self]
        congr 1
        push_cast
        ring_nf
      · rw [ih (rank + 1) _ id hnd2.2]
        rw [mget_mset m x id _, if_neg hix]
        by_cases him : id ∈ ids
        · rw [if_pos him]
          rw [if_pos (List.mem_cons_of_mem x him)]
          rw [rankOf_cons_ne x id ids (fun he => hix he.symm)]
          congr 1
          push_cast
          ring_nf
        · rw [if_neg him]
          rw [if_neg (fun hmem => (List.mem_cons.mp hmem).elim hix him)]

theorem entries_sorted_strict_order (l : List (String × ℚ))
    (hsorted : l.Pairwise entryDesc) (i j : Fin l.length)
    (hlt : (l.get j).2 < (l.get i).2) : i < j := by
  rcases lt_trichotomy i j with h | h | h
  · exact h
  · exfalso; rw [h] at hlt; exact lt_irrefl _ hlt
  · exfalso
    have := List.pairwise_iff_get.mp hsorted j i h
    rw [entryDesc] at this
    exact absurd hlt (not_lt.mpr this)

end Therapy

namespace Therapy

/-- C6: in Reciprocal Rank Fusion with weight alpha strictly between 0 and 1
and k equal to 60, an item present in only one ranked list receives exactly
that list's weight divided by (k + rank + 1) as its fused score, and an item
ranked first in both lists has a strictly greater fused score than every
single-list item — hence it also precedes every such item in the fused
ranking. -/
theorem rrf_top_of_both_outranks_single
    (semanticResults keywordResults : List SearchResult) (alpha : ℚ)
    (xid yid : String) (h0 : 0 < alpha) (h1 : alpha < 1)
    (hns : (semanticResults.map (fun r => r.id)).Nodup)
    (hnk : (keywordResults.map (fun r => r.id)).Nodup)
    (hxs : (semanticResults.map (fun r => r.id)).head? = some xid)
    (hxk : (keywordResults.map (fun r => r.id)).head? = some xid)
    (hy : (yid ∈ semanticResults.map (fun r => r.id) ∧
            yid ∉ keywordResults.map (fun r => r.id)) ∨
          (yid ∈ keywordResults.map (fun r => r.id) ∧
            yid ∉ semanticResults.map (fun r => r.id))) :
    ∃ sx sy : ℚ,
      mget (rrfScoreMap semanticResults keywordResults alpha 60) xid = some sx ∧
      mget (rrfScoreMap semanticResults keywordResults alpha 60) yid = some sy ∧
      sx = alpha / 61 + (1 - alpha) / 61 ∧
      (yid ∈ semanticResults.map (fun r => r.id) →
        sy = alpha /
          (60 + (rankOf yid (semanticResults.map (fun r => r.id)) : ℚ) + 1)) ∧
      (yid ∈ keywordResults.map (fun r => r.id) →
        sy = (1 - alpha) /
          (60 + (rankOf yid (keywordResults.map (fun r => r.id)) : ℚ) + 1)) ∧
      sy < sx ∧
      (∀ i j : Fin (reciprocalRankFusion semanticResults keywordResults
          alpha 60).length,
        ((reciprocalRankFusion semanticResults keywordResults alpha 60).get i).1
            = xid →
        ((reciprocalRankFusion semanticResults keywordResults alpha 60).get j).1
            = yid →
        i < j) ∧
      (∃ i : Fin (reciprocalRankFusion semanticResults keywordResults
          alpha 60).length,
        ((reciprocalRankFusion semanticResults keywordResults alpha 60).get i).1
          = xid) ∧
      (∃ j : Fin (reciprocalRankFusion semanticResults keywordResults
          alpha 60).length,
        ((reciprocalRankFusion semanticResults keywordResults alpha 60).get j).1
          = yid) := by
  set semIds := semanticResults.map (fun r => r.id) with hsemdef
  set keyIds := keywordResults.map (fun r => r.id) with hkeydef
  set m1 := rrfAdd alpha 60 0 semIds [] with hm1def
  set m2 := rrfAdd (1 - alpha) 60 0 keyIds m1 with hm2def
  have hmap : rrfScoreMap semanticResults keywordResults alpha 60 = m2 := rfl
  have hm1get : ∀ id, mget m1 id
      = if id ∈ semIds then
          some (0 + alpha / (60 + (((0 : Nat) : ℚ) + (rankOf id semIds : ℚ)) + 1))
        else none := by
    intro id
    rw [hm1def, rrfAdd_mget alpha 60 semIds 0 [] id hns]
    rw [mget_nil]
    rfl
  have hm2get : ∀ id, mget m2 id
      = if id ∈ keyIds then
          some ((mget m1 id).getD 0
            + (1 - alpha) / (60 + (((0 : Nat) : ℚ) + (rankOf id keyIds : ℚ)) + 1))
        else mget m1 id := by
    intro id
    rw [hm2def, rrfAdd_mget (1 - alpha) 60 keyIds 0 m1 id hnk]
  obtain ⟨semTail, hsemEq⟩ : ∃ t, semIds = xid :: t := by
    cases h : semIds with
    | nil => rw [h] at hxs; cases hxs
    | cons a t =>
        rw [h, List.head?_cons] at hxs
        exact ⟨t, by rw [Option.some.inj hxs]⟩
  obtain ⟨keyTail, hkeyEq⟩ : ∃ t, keyIds = xid :: t := by
    cases h : keyIds with
    | nil => rw [h] at hxk; cases hxk
    | cons a t =>
        rw [h, List.head?_cons] at hxk
        exact ⟨t, by rw [Option.some.inj hxk]⟩
  have hxsem : xid ∈ semIds := by rw [hsemEq]; exact List.mem_cons_self _ _
  have hxkey : xid ∈ keyIds := by rw [hkeyEq]; exact List.mem_cons_self _ _
  have hrxs : rankOf xid semIds = 0 := by rw [hsemEq]; exact rankOf_cons_self _ _
  have hrxk : rankOf xid keyIds = 0 := by rw [hkeyEq]; exact rankOf_cons_self _ _
  have hm1x : mget m1 xid = some (alpha / 61) := by
    rw [hm1get xid, if_pos hxsem, hrxs]
    norm_num
  have hm2x : mget m2 xid = some (alpha / 61 + (1 - alpha) / 61) := by
    rw [hm2get xid, if_pos hxkey, hrxk, hm1x]
    norm_num
  have hkeys1 : (m1.map Prod.fst).Nodup := by
    rw [hm1def]
    exact rrfAdd_keys_nodup alpha 60 semIds 0 [] (by simp)
  have hkeys2 : (m2.map Prod.fst).Nodup := by
    rw [hm2def]
    exact rrfAdd_keys_nodup (1 - alpha) 60 keyIds 0 m1 hkeys1
  have hout : reciprocalRankFusion semanticResults keywordResults alpha 60
      = List.insertionSort entryDesc m2 := by
    rw [reciprocalRankFusion, hmap]
  have hperm : (reciprocalRankFusion semanticResults keywordResults alpha 60).Perm
      m2 := by
    rw [hout]
    exact List.perm_insertionSort entryDesc m2
  have hsorted : (reciprocalRankFusion semanticResults keywordResults
      alpha 60).Pairwise entryDesc := by
    rw [hout]
    exact List.sorted_insertionSort entryDesc m2
  have houtkeys : ((reciprocalRankFusion semanticResults keywordResults
      alpha 60).map Prod.fst).Nodup :=
    ((hperm.map Prod.fst).nodup_iff).mpr hkeys2
  have rankPart : ∀ sy : ℚ, mget m2 yid = some sy →
      sy < alpha / 61 + (1 - alpha) / 61 →
      (∀ i j : Fin (reciprocalRankFusion semanticResults keywordResults
          alpha 60).length,
        ((reciprocalRankFusion semanticResults keywordResults alpha 60).get i).1
            = xid →
        ((reciprocalRankFusion semanticResults keywordResults alpha 60).get j).1
            = yid → i < j) ∧
      (∃ i : Fin (reciprocalRankFusion semanticResults keywordResults
          alpha 60).length,
        ((reciprocalRankFusion semanticResults keywordResults alpha 60).get i).1
          = xid) ∧
      (∃ j : Fin (reciprocalRankFusion semanticResults keywordResults
          alpha 60).length,
        ((reciprocalRankFusion semanticResults keywordResults alpha 60).get j).1
          = yid) := by
    intro sy hm2y hlt
    have hxin : (xid, alpha / 61 + (1 - alpha) / 61)
        ∈ reciprocalRankFusion semanticResults keywordResults alpha 60 :=
      hperm.mem_iff.mpr (mget_some_mem m2 xid _ hm2x)
    have hyin : (yid, sy)
        ∈ reciprocalRankFusion semanticResults keywordResults alpha 60 :=
      hperm.mem_iff.mpr (mget_some_mem m2 yid _ hm2y)
    refine ⟨?_, ?_, ?_⟩
    · intro i j hi hj
      have hgi : (reciprocalRankFusion semanticResults keywordResults
          alpha 60).get i = (xid, alpha / 61 + (1 - alpha) / 61) :=
        List.inj_on_of_nodup_map houtkeys
          (List.get_mem _ i.1 i.2) hxin (by rw [hi])
      have hgj : (reciprocalRankFusion semanticResults keywordResults
          alpha 60).get j = (yid, sy) :=
        List.inj_on_of_nodup_map houtkeys
          (List.get_mem _ j.1 j.2) hyin (by rw [hj])
      refine entries_sorted_strict_order _ hsorted i j ?_
      rw [hgi, hgj]
      exact hlt
    · rcases List.mem_iff_get.mp hxin with ⟨n, hn⟩
      exact ⟨n, by rw [hn]⟩
    · rcases List.mem_iff_get.mp hyin with ⟨n, hn⟩
      exact ⟨n, by rw [hn]⟩
  have hr61 : ∀ r : Nat, (61 : ℚ) ≤ 60 + (r : ℚ) + 1 := by
    intro r
    have : (0 : ℚ) ≤ (r : ℚ) := Nat.cast_nonneg r
    linarith
  rcases hy with ⟨hys, hynk⟩ | ⟨hyk, hyns⟩
  · refine ⟨alpha / 61 + (1 - alpha) / 61,
      alpha / (60 + (rankOf yid semIds : ℚ) + 1), hmap ▸ hm2x, ?_, rfl, ?_, ?_, ?_, ?_⟩
    · rw [hmap, hm2get yid, if_neg hynk, hm1get yid, if_pos hys]
      norm_num
    · intro _; rfl
    · intro h; exact absurd h hynk
    · have hle : alpha / (60 + (rankOf yid semIds : ℚ) + 1) ≤ alpha / 61 :=
        div_le_div_of_nonneg_left (le_of_lt h0) (by norm_num)
          (hr61 (rankOf yid semIds))
      have hpos : 0 < (1 - alpha) / 61 := div_pos (by linarith) (by norm_num)
      linarith
    · refine rankPart (alpha / (60 + (rankOf yid semIds : ℚ) + 1)) ?_ ?_
      · rw [hm2get yid, if_neg hynk, hm1get yid, if_pos hys]
        norm_num
      · have hle : alpha / (60 + (rankOf yid semIds : ℚ) + 1) ≤ alpha / 61 :=
          div_le_div_of_nonneg_left (le_of_lt h0) (by norm_num)
            (hr61 (rankOf yid semIds))
        have hpos : 0 < (1 - alpha) / 61 := div_pos (by linarith) (by norm_num)
        linarith
  · refine ⟨alpha / 61 + (1 - alpha) / 61,
      (1 - alpha) / (60 + (rankOf yid keyIds : ℚ) + 1), hmap ▸ hm2x, ?_, rfl, ?_,
      ?_, ?_, ?_⟩
    · rw [hmap, hm2get yid, if_pos hyk, hm1get yid, if_neg hyns]
      norm_num
    · intro h; exact absurd h hyns
    · intro _; rfl
    · have hle : (1 - alpha) / (60 + (rankOf yid keyIds : ℚ) + 1)
          ≤ (1 - alpha) / 61 :=
        div_le_div_of_nonneg_left (by linarith) (by norm_num)
          (hr61 (rankOf yid keyIds))
      have hpos : 0 < alpha / 61 := div_pos h0 (by norm_num)
      linarith
    · refine rankPart ((1 - alpha) / (60 + (rankOf yid keyIds : ℚ) + 1)) ?_ ?_
      · rw [hm2get yid, if_pos hyk, hm1get yid, if_neg hyns]
        norm_num
      · have hle : (1 - alpha) / (60 + (rankOf yid keyIds : ℚ) + 1)
            ≤ (1 - alpha) / 61 :=
          div_le_div_of_nonneg_left (by linarith) (by norm_num)
            (hr61 (rankOf yid keyIds))
        have hpos : 0 < alpha / 61 := div_pos h0 (by norm_num)
        linarith

end Therapy

namespace Therapy

/-- C6 witness: semantic list with items x then y, keyword list with x only,
alpha one half; every hypothesis holds and x outranks the single-list item
y in the fused ranking. -/
theorem rrf_top_of_both_outranks_single_witness :
    ((0 : ℚ) < 1 / 2 ∧ (1 / 2 : ℚ) < 1) ∧
    (∃ sx sy : ℚ,
      mget (rrfScoreMap
          [⟨"x", 9, "", [], ⟨"", "", "", "", 0, 0, none⟩⟩,
       ⟨"y", 8, "", [], ⟨"", "", "", "", 0, 0, none⟩⟩]
          [⟨"x", 5, "", [], ⟨"", "", "", "", 0, 0, none⟩⟩] (1 / 2) 60) "x" = some sx ∧
      mget (rrfScoreMap
          [⟨"x", 9, "", [], ⟨"", "", "", "", 0, 0, none⟩⟩,
       ⟨"y", 8, "", [], ⟨"", "", "", "", 0, 0, none⟩⟩]
          [⟨"x", 5, "", [], ⟨"", "", "", "", 0, 0, none⟩⟩] (1 / 2) 60) "y" = some sy ∧
      sx = (1 / 2 : ℚ) / 61 + (1 - 1 / 2) / 61 ∧
      ("y" ∈ ([⟨"x", 9, "", [], ⟨"", "", "", "", 0, 0, none⟩⟩,
       ⟨"y", 8, "", [], ⟨"", "", "", "", 0, 0, none⟩⟩] :
          List SearchResult).map (fun r => r.id) →
        sy = (1 / 2 : ℚ) /
          (60 + (rankOf "y" (([⟨"x", 9, "", [], ⟨"", "", "", "", 0, 0, none⟩⟩,
       ⟨"y", 8, "", [], ⟨"", "", "", "", 0, 0, none⟩⟩] :
            List SearchResult).map (fun r => r.id)) : ℚ) + 1)) ∧
      ("y" ∈ ([⟨"x", 5, "", [], ⟨"", "", "", "", 0, 0, none⟩⟩] :
          List SearchResult).map (fun r => r.id) →
        sy = (1 - 1 / 2 : ℚ) /
          (60 + (rankOf "y" (([⟨"x", 5, "", [], ⟨"", "", "", "", 0, 0, none⟩⟩] :
            List SearchResult).map (fun r => r.id)) : ℚ) + 1)) ∧
      sy < sx ∧
      (∀ i j : Fin (reciprocalRankFusion
          [⟨"x", 9, "", [], ⟨"", "", "", "", 0, 0, none⟩⟩,
       ⟨"y", 8, "", [], ⟨"", "", "", "", 0, 0, none⟩⟩]
          [⟨"x", 5, "", [], ⟨"", "", "", "", 0, 0, none⟩⟩] (1 / 2) 60).length,
        ((reciprocalRankFusion
          [⟨"x", 9, "", [], ⟨"", "", "", "", 0, 0, none⟩⟩,
       ⟨"y", 8, "", [], ⟨"", "", "", "", 0, 0, none⟩⟩]
          [⟨"x", 5, "", [], ⟨"", "", "", "", 0, 0, none⟩⟩] (1 / 2) 60).get i).1 = "x" →
        ((reciprocalRankFusion
          [⟨"x", 9, "", [], ⟨"", "", "", "", 0, 0, none⟩⟩,
       ⟨"y", 8, "", [], ⟨"", "", "", "", 0, 0, none⟩⟩]
          [⟨"x", 5, "", [], ⟨"", "", "", "", 0, 0, none⟩⟩] (1 / 2) 60).get j).1 = "y" →
        i < j) ∧
      (∃ i : Fin (reciprocalRankFusion
          [⟨"x", 9, "", [], ⟨"", "", "", "", 0, 0, none⟩⟩,
       ⟨"y", 8, "", [], ⟨"", "", "", "", 0, 0, none⟩⟩]
          [⟨"x", 5, "", [], ⟨"", "", "", "", 0, 0, none⟩⟩] (1 / 2) 60).length,
        ((reciprocalRankFusion
          [⟨"x", 9, "", [], ⟨"", "", "", "", 0, 0, none⟩⟩,
       ⟨"y", 8, "", [], ⟨"", "", "", "", 0, 0, none⟩⟩]
          [⟨"x", 5, "", [], ⟨"", "", "", "", 0, 0, none⟩⟩] (1 / 2) 60).get i).1 = "x") ∧
      (∃ j : Fin (reciprocalRankFusion
          [⟨"x", 9, "", [], ⟨"", "", "", "", 0, 0, none⟩⟩,
       ⟨"y", 8, "", [], ⟨"", "", "", "", 0, 0, none⟩⟩]
          [⟨"x", 5, "", [], ⟨"", "", "", "", 0, 0, none⟩⟩] (1 / 2) 60).length,
        ((reciprocalRankFusion
          [⟨"x", 9, "", [], ⟨"", "", "", "", 0, 0, none⟩⟩,
       ⟨"y", 8, "", [], ⟨"", "", "", "", 0, 0, none⟩⟩]
          [⟨"x", 5, "", [], ⟨"", "", "", "", 0, 0, none⟩⟩] (1 / 2) 60).get j).1 = "y")) :=
  ⟨⟨by norm_num, by norm_num⟩,
    rrf_top_of_both_outranks_single
      [⟨"x", 9, "", [], ⟨"", "", "", "", 0, 0, none⟩⟩,
       ⟨"y", 8, "", [], ⟨"", "", "", "", 0, 0, none⟩⟩]
      [⟨"x", 5, "", [], ⟨"", "", "", "", 0, 0, none⟩⟩] (1 / 2) "x" "y" (by norm_num) (by norm_num)
      (by decide) (by decide) rfl rfl (Or.inl ⟨by decide, by decide⟩)⟩

end Therapy
